import Mathlib

/-!
Verification development for the `splunk_app_for_openai` repository.

The repository contains two Splunk streaming search commands:

* `bin/openai_insight.py` — a grouped batch summarizer (`OpenAIInsightCommand`):
  per-group buffering with size/time flush triggers, redaction of secret-like
  substrings, a truncated request payload, and one synthesized output record per
  flush.
* `bin/openai_streaming.py` — a placeholder substituting streamer
  (`OpenAIStreaming`): fixed-size batches of records, prompt template
  substitution, reassembly of a server-sent-event token stream, one output
  record per input record.

This file is a shallow embedding of both commands.  Pure Python functions
become Lean functions; the mutable per-group buffers become explicit state
passing; calls into the network and the clock are modelled by oracles supplied
as arguments; code that can raise returns `Except`.  External library
behaviour that the code relies on (`json.loads` / `json.dumps`, `str.replace`,
`re.findall` for the fixed placeholder pattern, `re.sub` for the default
redaction pattern) is modelled by executable Lean functions that follow the
documented semantics of those library calls on the inputs the program feeds
them.
-/

/-! ## Python values and records

Records flowing through a Splunk pipeline are dictionaries.  We model a value
as either a string, an integer, or a float.  Floats only occur as clock
readings and timestamps here; the claims below depend only on their ordering
and differences, so the embedding takes clock readings from `ℤ` (think of a
fixed-resolution tick count).  A record is an insertion-ordered association list, matching a
Python `dict`.
-/

/-- The character `{`. -/
def lbrace : Char := Char.ofNat 123

/-- The character `}`. -/
def rbrace : Char := Char.ofNat 125

/-- A Python value stored in a pipeline record. -/
inductive Value where
  | vStr (s : String)
  | vInt (n : Int)
  | vFloat (t : Int)
deriving DecidableEq

/-- Python `str()` coercion of a record value.  `str` of a string is itself,
`str` of an int is its decimal form.  (Floats never reach `str()` in the code
paths the claims cover; we render the rational directly.) -/
def pyStr : Value → String
  | .vStr s => s
  | .vInt n => toString n
  | .vFloat t => toString t

/-- A pipeline record: an insertion-ordered mapping from field names to
values, modelling a Python `dict`. -/
def Record : Type := List (String × Value)

instance : DecidableEq Record := by
  unfold Record
  infer_instance

/-- First-match association-list lookup (Python `dict` access; the embedding
keeps keys unique, so first match is the match). -/
def assocFind {α β : Type} [DecidableEq α] : List (α × β) → α → Option β
  | [], _ => none
  | p :: rest, k => if p.1 = k then some p.2 else assocFind rest k

/-- `record.get(key)` — `none` when the field is absent. -/
def recGet (r : Record) (k : String) : Option Value :=
  assocFind r k

/-- `record.get(key, default)`. -/
def recGetD (r : Record) (k : String) (d : Value) : Value :=
  (recGet r k).getD d

/-- Python `dict` assignment `d[k] = v`: overwrite in place if the key exists
(keeping its position), otherwise append at the end. -/
def dictSet {β : Type} (l : List (String × β)) (k : String) (v : β) :
    List (String × β) :=
  if (assocFind l k).isSome then
    l.map (fun p => if p.1 = k then (p.1, v) else p)
  else
    l ++ [(k, v)]

/-- Python `dict.update(other)`: assign each key/value pair in order. -/
def pyUpdate (r : Record) (kvs : List (String × Value)) : Record :=
  kvs.foldl (fun acc kv => dictSet acc kv.1 kv.2) r

/-! ## JSON

A model of the JSON values the two commands produce and consume, together
with executable models of `json.loads` and `json.dumps`.  Numbers are kept as
their source text (the code never does arithmetic on parsed numbers), which
also renders them back verbatim.
-/

/-- A JSON value.  `num` stores the literal source text of the number. -/
inductive Json where
  | null
  | bool (b : Bool)
  | num (s : String)
  | str (s : String)
  | arr (xs : List Json)
  | obj (kvs : List (String × Json))

/-- JSON whitespace accepted between tokens by `json.loads`. -/
def jsonWs (c : Char) : Bool :=
  c = ' ' || c = '\t' || c = '\n' || c = '\r'

/-- Hexadecimal digit value, for `\uXXXX` escapes. -/
def hexVal (c : Char) : Option Nat :=
  if '0' ≤ c ∧ c ≤ '9' then some (c.toNat - '0'.toNat)
  else if 'a' ≤ c ∧ c ≤ 'f' then some (c.toNat - 'a'.toNat + 10)
  else if 'A' ≤ c ∧ c ≤ 'F' then some (c.toNat - 'A'.toNat + 10)
  else none

/-- Translation of a single-character JSON string escape. -/
def escChar (c : Char) : Option Char :=
  if c = '"' then some '"'
  else if c = '\\' then some '\\'
  else if c = '/' then some '/'
  else if c = 'n' then some '\n'
  else if c = 't' then some '\t'
  else if c = 'r' then some '\r'
  else if c = 'b' then some (Char.ofNat 8)
  else if c = 'f' then some (Char.ofNat 12)
  else none

/-- Parse the body of a JSON string literal (the opening quote already
consumed); returns the decoded characters and the input after the closing
quote. -/
def parseJStr : List Char → Option (List Char × List Char)
  | [] => none
  | c :: rest =>
    if c = '"' then some ([], rest)
    else if c = '\\' then
      match rest with
      | [] => none
      | e :: rest2 =>
        if e = 'u' then
          match rest2 with
          | a :: b :: c2 :: d :: rest3 =>
            match hexVal a, hexVal b, hexVal c2, hexVal d with
            | some ha, some hb, some hc, some hd =>
              match parseJStr rest3 with
              | some (s, r) =>
                some (Char.ofNat (((ha * 16 + hb) * 16 + hc) * 16 + hd) :: s, r)
              | none => none
            | _, _, _, _ => none
          | _ => none
        else
          match escChar e with
          | some ec =>
            match parseJStr rest2 with
            | some (s, r) => some (ec :: s, r)
            | none => none
          | none => none
    else
      match parseJStr rest with
      | some (s, r) => some (c :: s, r)
      | none => none

/-- Parse a JSON number literal: optional minus, integer digits, optional
fraction, optional exponent.  Returns the consumed source text and the rest. -/
def parseJNum (cs : List Char) : Option (List Char × List Char) :=
  let (sign, cs1) :=
    match cs with
    | '-' :: rest => (['-'], rest)
    | _ => ([], cs)
  let intPart := cs1.takeWhile (fun c => Char.isDigit c)
  let cs2 := cs1.dropWhile (fun c => Char.isDigit c)
  if intPart.isEmpty then none
  else
    let (fracPart, cs3) :=
      match cs2 with
      | '.' :: rest =>
        let ds := rest.takeWhile (fun c => Char.isDigit c)
        if ds.isEmpty then ([], cs2)
        else ('.' :: ds, rest.dropWhile (fun c => Char.isDigit c))
      | _ => ([], cs2)
    let (expPart, cs4) :=
      match cs3 with
      | e :: rest =>
        if e = 'e' ∨ e = 'E' then
          let (esign, rest2) :=
            match rest with
            | '+' :: r2 => (['+'], r2)
            | '-' :: r2 => (['-'], r2)
            | _ => ([], rest)
          let ds := rest2.takeWhile (fun c => Char.isDigit c)
          if ds.isEmpty then ([], cs3)
          else (e :: esign ++ ds, rest2.dropWhile (fun c => Char.isDigit c))
        else ([], cs3)
      | [] => ([], cs3)
    some (sign ++ intPart ++ fracPart ++ expPart, cs4)

/-- Insert a member into a JSON object under construction: on a duplicate key
the value is overwritten in place, as `json.loads` builds a Python dict. -/
def objInsert (kvs : List (String × Json)) (k : String) (v : Json) :
    List (String × Json) :=
  dictSet kvs k v

mutual

/-- Recursive-descent JSON value parser (fuel-indexed so that it is structural
and kernel-reducible).  Mirrors `json.loads` on the grammar the program
exchanges. -/
def parseVal : Nat → List Char → Option (Json × List Char)
  | 0, _ => none
  | f+1, cs =>
    match cs.dropWhile jsonWs with
    | [] => none
    | c :: rest =>
      if c = '"' then
        match parseJStr rest with
        | some (s, r) => some (.str (String.mk s), r)
        | none => none
      else if c = lbrace then parseObjBody f rest
      else if c = '[' then parseArrBody f rest
      else if c = 't' then
        match rest with
        | 'r' :: 'u' :: 'e' :: r => some (.bool true, r)
        | _ => none
      else if c = 'f' then
        match rest with
        | 'a' :: 'l' :: 's' :: 'e' :: r => some (.bool false, r)
        | _ => none
      else if c = 'n' then
        match rest with
        | 'u' :: 'l' :: 'l' :: r => some (.null, r)
        | _ => none
      else
        match parseJNum (c :: rest) with
        | some (numChars, r) => some (.num (String.mk numChars), r)
        | none => none

/-- Parse an object body, the opening brace already consumed. -/
def parseObjBody : Nat → List Char → Option (Json × List Char)
  | 0, _ => none
  | f+1, cs =>
    match cs.dropWhile jsonWs with
    | [] => none
    | c :: rest =>
      if c = rbrace then some (.obj [], rest)
      else parseObjMembers f [] (c :: rest)

/-- Parse one or more `"key": value` members followed by `,` or `}`. -/
def parseObjMembers : Nat → List (String × Json) → List Char →
    Option (Json × List Char)
  | 0, _, _ => none
  | f+1, acc, cs =>
    match cs.dropWhile jsonWs with
    | '"' :: rest =>
      match parseJStr rest with
      | some (k, r1) =>
        match r1.dropWhile jsonWs with
        | ':' :: r2 =>
          match parseVal f r2 with
          | some (v, r3) =>
            match r3.dropWhile jsonWs with
            | ',' :: r4 => parseObjMembers f (objInsert acc (String.mk k) v) r4
            | cc :: r4 =>
              if cc = rbrace then some (.obj (objInsert acc (String.mk k) v), r4)
              else none
            | [] => none
          | none => none
        | _ => none
      | none => none
    | _ => none

/-- Parse an array body, the opening bracket already consumed. -/
def parseArrBody : Nat → List Char → Option (Json × List Char)
  | 0, _ => none
  | f+1, cs =>
    match cs.dropWhile jsonWs with
    | [] => none
    | c :: rest =>
      if c = ']' then some (.arr [], rest)
      else parseArrElems f [] (c :: rest)

/-- Parse one or more array elements followed by `,` or `]`. -/
def parseArrElems : Nat → List Json → List Char → Option (Json × List Char)
  | 0, _, _ => none
  | f+1, acc, cs =>
    match parseVal f cs with
    | some (v, r1) =>
      match r1.dropWhile jsonWs with
      | ',' :: r2 => parseArrElems f (acc ++ [v]) r2
      | c :: r2 => if c = ']' then some (.arr (acc ++ [v]), r2) else none
      | [] => none
    | none => none

end

/-- Model of `json.loads`: parse a complete JSON document; fail if anything
but whitespace trails the value. -/
def jsonParse (s : String) : Option Json :=
  match parseVal (3 * s.length + 16) s.data with
  | some (j, rest) => if (rest.dropWhile jsonWs).isEmpty then some j else none
  | none => none

/-- Serialize one character of a JSON string as `json.dumps` does with
`ensure_ascii=False`: escape the quote, the backslash and ASCII control
characters; pass everything else through. -/
def escJChar (c : Char) : String :=
  if c = '"' then "\\\""
  else if c = '\\' then "\\\\"
  else if c = '\n' then "\\n"
  else if c = '\t' then "\\t"
  else if c = '\r' then "\\r"
  else if c = Char.ofNat 8 then "\\b"
  else if c = Char.ofNat 12 then "\\f"
  else if c.toNat < 32 then
    let lo := c.toNat % 16
    let hi := c.toNat / 16
    let dig := fun (n : Nat) => if n < 10 then Char.ofNat ('0'.toNat + n)
                                else Char.ofNat ('a'.toNat + n - 10)
    "\\u00" ++ String.mk [dig hi, dig lo]
  else String.mk [c]

/-- Serialize a JSON string body. -/
def escJString (s : String) : String :=
  String.join (s.data.map escJChar)

mutual

/-- Model of `json.dumps(..., ensure_ascii=False)` with the default
separators `", "` and `": "` (fuel-indexed for kernel reducibility). -/
def jsonDumpsF : Nat → Json → String
  | 0, _ => ""
  | f+1, j =>
    match j with
    | .null => "null"
    | .bool true => "true"
    | .bool false => "false"
    | .num s => s
    | .str s => "\"" ++ escJString s ++ "\""
    | .arr xs => "[" ++ jsonDumpsArr f xs ++ "]"
    | .obj kvs =>
      String.mk [lbrace] ++ jsonDumpsObj f kvs ++ String.mk [rbrace]

/-- Serialize array elements, comma-separated. -/
def jsonDumpsArr : Nat → List Json → String
  | 0, _ => ""
  | _+1, [] => ""
  | f+1, [x] => jsonDumpsF f x
  | f+1, x :: y :: rest => jsonDumpsF f x ++ ", " ++ jsonDumpsArr f (y :: rest)

/-- Serialize object members, comma-separated. -/
def jsonDumpsObj : Nat → List (String × Json) → String
  | 0, _ => ""
  | _+1, [] => ""
  | f+1, [kv] => "\"" ++ escJString kv.1 ++ "\": " ++ jsonDumpsF f kv.2
  | f+1, kv :: kv2 :: rest =>
    "\"" ++ escJString kv.1 ++ "\": " ++ jsonDumpsF f kv.2 ++ ", " ++
      jsonDumpsObj f (kv2 :: rest)

end

/-- Fuel adequate to serialize a JSON value: its size. -/
def jsonFuel : Json → Nat
  | .null => 1
  | .bool _ => 1
  | .num _ => 1
  | .str _ => 1
  | .arr xs => 1 + jsonFuelArr xs
  | .obj kvs => 1 + jsonFuelObj kvs
where
  jsonFuelArr : List Json → Nat
    | [] => 0
    | x :: rest => 1 + jsonFuel x + jsonFuelArr rest
  jsonFuelObj : List (String × Json) → Nat
    | [] => 0
    | kv :: rest => 1 + jsonFuel kv.2 + jsonFuelObj rest

/-- Model of `json.dumps(j, ensure_ascii=False)`. -/
def jsonDumps (j : Json) : String :=
  jsonDumpsF (jsonFuel j) j

theorem sanity_jsonParse_not_json : (jsonParse "not json").isNone = true := by decide

theorem sanity_jsonDumps_empty_arr : jsonDumps (.arr []) = "[]" := rfl

/-! ## The default redaction pattern

`OpenAIInsightCommand.redact` defaults to the regex
`(?i)(api[_-]?key|password|token)=\S+` with one capture group, and `flush`
applies `redact_re.sub(r"\1=***", v)` to every string field value.
`re.compile` of an arbitrary user pattern is an external library call; the
embedding implements the substitution semantics of the default pattern:
leftmost non-overlapping matches, the alternatives tried in order,
`[_-]?` greedy, `\S+` greedy, case-insensitive matching that captures the
original text. -/

/-- Python `\s` on ASCII: space, tab, newline, carriage return, vertical tab,
form feed. -/
def pyIsSpace (c : Char) : Bool :=
  c = ' ' || c = '\t' || c = '\n' || c = '\r' ||
  c = Char.ofNat 11 || c = Char.ofNat 12

/-- Python `str.strip()`: drop leading and trailing whitespace. -/
def pyStrip (s : String) : String :=
  String.mk (((s.data.dropWhile (fun c => pyIsSpace c)).reverse.dropWhile
    (fun c => pyIsSpace c)).reverse)

/-- Helper for `pySplitComma`: split at every comma, `acc` holding the
current piece reversed. -/
def splitCommaAux : List Char → List Char → List String
  | [], acc => [String.mk acc.reverse]
  | c :: cs, acc =>
    if c = ',' then String.mk acc.reverse :: splitCommaAux cs []
    else splitCommaAux cs (c :: acc)

/-- Python `s.split(",")` (keeps empty pieces). -/
def pySplitComma (s : String) : List String :=
  splitCommaAux s.data []

/-- Case-insensitive literal prefix match; returns the matched original
characters and the remaining input. -/
def ciPrefix : List Char → List Char → Option (List Char × List Char)
  | [], cs => some ([], cs)
  | _ :: _, [] => none
  | p :: ps, c :: cs =>
    if p.toLower = c.toLower then
      match ciPrefix ps cs with
      | some (m, rest) => some (c :: m, rest)
      | none => none
    else none

/-- Match the alternative `api[_-]?key` (case-insensitively): `api`, then a
greedy optional `_` or `-` with backtracking, then `key`. -/
def tryApiKey (cs : List Char) : Option (List Char × List Char) :=
  match ciPrefix "api".data cs with
  | none => none
  | some (m1, rest1) =>
    match rest1 with
    | c :: rest2 =>
      if c = '_' ∨ c = '-' then
        match ciPrefix "key".data rest2 with
        | some (m2, rest3) => some (m1 ++ c :: m2, rest3)
        | none => (ciPrefix "key".data rest1).map (fun p => (m1 ++ p.1, p.2))
      else (ciPrefix "key".data rest1).map (fun p => (m1 ++ p.1, p.2))
    | [] => none

/-- Match the capture group `(api[_-]?key|password|token)`, alternatives in
order. -/
def tryKeyName (cs : List Char) : Option (List Char × List Char) :=
  match tryApiKey cs with
  | some r => some r
  | none =>
    match ciPrefix "password".data cs with
    | some r => some r
    | none => ciPrefix "token".data cs

/-- Match the whole pattern `(api[_-]?key|password|token)=\S+` at the head of
the input; returns the captured key name (original text) and the input after
the greedy `\S+`. -/
def tryRedactMatch (cs : List Char) : Option (List Char × List Char) :=
  match tryKeyName cs with
  | none => none
  | some (key, rest) =>
    match rest with
    | '=' :: rest2 =>
      let secret := rest2.takeWhile (fun c => !pyIsSpace c)
      if secret.isEmpty then none
      else some (key, rest2.dropWhile (fun c => !pyIsSpace c))
    | _ => none

/-- Scan for leftmost non-overlapping matches, replacing each by the captured
key name followed by `=***` (fuel-indexed; a match consumes at least five
characters, a non-match one). -/
def redactAux : Nat → List Char → List Char
  | 0, cs => cs
  | _+1, [] => []
  | f+1, c :: cs =>
    match tryRedactMatch (c :: cs) with
    | some (key, rest) => key ++ '=' :: '*' :: '*' :: '*' :: redactAux f rest
    | none => c :: redactAux f cs

/-- Model of `re.sub(r"\1=***", v)` for the default redaction pattern
`(?i)(api[_-]?key|password|token)=\S+`. -/
def defaultRedact (s : String) : String :=
  String.mk (redactAux (s.length + 1) s.data)

theorem sanity_defaultRedact_api_key : defaultRedact "api_key=SECRET123" = "api_key=***" := rfl

/-! ## The grouped batch summarizer (`openai_insight.py`)

Configuration mirrors the command's options.  `redact` is compiled by the
external `re` library into a substitution function, so the stream functions
take the compiled redaction as an `Option (String → String)` argument
(matching `redact_re = re.compile(self.redact) if self.redact else None`);
`defaultRedact` above is that function for the default pattern.  The network
client is modelled by an oracle `resps : Nat → String` giving the text content
of the n-th completion response, and the two `time.time()` calls made while
processing a record are the `t1`/`t2` components of the input event. -/

/-- The options of `OpenAIInsightCommand` used by its `stream` method.
`batch_size` is validated into `[1, 500]` and `window_sec` into `[0, ∞)` by
the hosting framework. -/
structure InsightConfig where
  fields : String
  mode : String
  group_by : Option String
  batch_size : Int
  window_sec : Option Int

/-- `field_list = [f.strip() for f in self.fields.split(",") if f.strip()]`. -/
def fieldListOf (cfg : InsightConfig) : List String :=
  ((pySplitComma cfg.fields).map (fun f => pyStrip f)).filter (fun f => f ≠ "")

/-- `group_field = self.group_by.strip() if self.group_by else None`
(`None` and the empty string are falsy). -/
def groupFieldOf (cfg : InsightConfig) : Option String :=
  match cfg.group_by with
  | none => none
  | some s => if s = "" then none else some (pyStrip s)

/-- `key = r.get(group_field, "__all__") if group_field else "__all__"`
(line 95): the empty-string `group_field` is falsy as well. -/
def keyOf (cfg : InsightConfig) (r : Record) : Value :=
  match groupFieldOf cfg with
  | none => .vStr "__all__"
  | some g => if g = "" then .vStr "__all__" else recGetD r g (.vStr "__all__")

/-- `item = {f: r.get(f, "") for f in field_list}` (line 49): a dict
comprehension over the configured field list; missing fields become `""`. -/
def itemOf (fl : List String) (r : Record) : List (String × Value) :=
  fl.foldl (fun acc f => dictSet acc f (recGetD r f (.vStr ""))) []

/-- Apply the redaction function to a value if it is a string
(`isinstance(v, str)`), else leave it unchanged. -/
def redactValue (f : String → String) : Value → Value
  | .vStr s => .vStr (f s)
  | v => v

/-- Lines 50–53: if a redaction pattern is configured, redact every string
value of the item in place. -/
def applyRedact (rf : Option (String → String)) (item : List (String × Value)) :
    List (String × Value) :=
  match rf with
  | none => item
  | some f => item.map (fun kv => (kv.1, redactValue f kv.2))

/-- Lines 47–54: the `items` list built by `flush` — one projected, redacted
item per buffered record, in buffer order. -/
def flushItems (cfg : InsightConfig) (rf : Option (String → String))
    (batch : List Record) : List (List (String × Value)) :=
  batch.map (fun r => applyRedact rf (itemOf (fieldListOf cfg) r))

/-- The `user_prompt` payload of lines 61–65 before serialization: the mode,
`sample_count` is `len(items)`, and `data` is `items[:self.batch_size]`. -/
structure Payload where
  mode : String
  sample_count : Nat
  data : List (List (String × Value))
deriving DecidableEq

/-- Build the request payload of lines 61–65 (`json.dumps` of this structure
is what is transmitted). -/
def flushPayload (cfg : InsightConfig) (rf : Option (String → String))
    (batch : List Record) : Payload :=
  { mode := cfg.mode
    sample_count := (flushItems cfg rf batch).length
    data := (flushItems cfg rf batch).take cfg.batch_size.toNat }

/-- Python `parsed.get(k, default)` on a dict. -/
def jGetD (kvs : List (String × Json)) (k : String) (d : Json) : Json :=
  (assocFind kvs k).getD d

/-- The output record emitted by `flush` (lines 83–89). -/
structure InsightResult where
  group : Value
  count : Nat
  insights : String
  anomalies : String
  actions : String
deriving DecidableEq

/-- Line 81: the fallback object built when `json.loads(out)` raises. -/
def parseFallback (out : String) : Json :=
  .obj [("insights",
    .arr [.obj [("title", .str "ParseError"), ("detail", .str out),
                ("confidence", .num "0.3")]])]

/-- The `flush` closure (lines 42–92) given the remote response text: empty
buffers return no output before any network call; the response text is parsed
with the fallback of line 81; `parsed.get(...)` on a non-dict raises
`AttributeError`, which nothing catches.  (The buffer/start-time clearing of
lines 90–91 is performed by `doFlush` below, on this function's success.) -/
def flushCall (cfg : InsightConfig) (rf : Option (String → String))
    (key : Value) (batch : List Record) (respText : String) :
    Except String (List InsightResult) :=
  if batch.isEmpty then .ok []
  else
    let items := flushItems cfg rf batch
    let parsed :=
      match jsonParse respText with
      | some j => j
      | none => parseFallback respText
    match parsed with
    | .obj kvs =>
      .ok [{ group := key
             count := items.length
             insights := jsonDumps (jGetD kvs "insights" (.arr []))
             anomalies := jsonDumps (jGetD kvs "anomalies" (.arr []))
             actions := jsonDumps (jGetD kvs "actions" (.arr [])) }]
    | _ => .error "AttributeError"

/-- One input event of the summarizer's record loop: the record plus the
values of the two `time.time()` calls made while processing it (line 98 sets
the buffer start time, line 99 evaluates the window condition). -/
structure Ev where
  rcd : Record
  t1 : Int
  t2 : Int
deriving DecidableEq

/-- The mutable state of `stream`: `buffers` (a `defaultdict(list)`, in key
insertion order, entries kept but emptied on flush), `first_ts`, and the
count of completion calls made so far (the index into the response oracle). -/
structure SState where
  buffers : List (Value × List Record)
  firstTs : List (Value × Int)
  cnt : Nat
deriving DecidableEq

/-- The state at the start of `stream`. -/
def initState : SState := ⟨[], [], 0⟩

/-- `buffers[key]` (a `defaultdict(list)` read). -/
def getBuf (bufs : List (Value × List Record)) (key : Value) : List Record :=
  (assocFind bufs key).getD []

/-- `buffers[key].append(r)`: appends to the existing entry, or creates the
entry at the end of insertion order. -/
def bufAppend (bufs : List (Value × List Record)) (key : Value) (r : Record) :
    List (Value × List Record) :=
  if (assocFind bufs key).isSome then
    bufs.map (fun p => if p.1 = key then (p.1, p.2 ++ [r]) else p)
  else
    bufs ++ [(key, [r])]

/-- `buffers[key] = []` (line 90): the entry stays, emptied. -/
def setBufEmpty (bufs : List (Value × List Record)) (key : Value) :
    List (Value × List Record) :=
  bufs.map (fun p => if p.1 = key then (p.1, ([] : List Record)) else p)

/-- `first_ts.pop(key, None)` (line 91). -/
def tsErase (ts : List (Value × Int)) (key : Value) : List (Value × Int) :=
  ts.filter (fun p => p.1 ≠ key)

/-- Lines 97–98: `if key not in first_ts: first_ts[key] = time.time()`,
the clock call being `ev.t1`. -/
def streamStepTs (cfg : InsightConfig) (ev : Ev) (st : SState) :
    List (Value × Int) :=
  let key := keyOf cfg ev.rcd
  if (assocFind st.firstTs key).isSome then st.firstTs
  else st.firstTs ++ [(key, ev.t1)]

/-- The flush condition of line 99:
`len(buffers[key]) >= int(self.batch_size) or (self.window_sec and
(time.time() - first_ts[key] >= int(self.window_sec)))`.  An integer
`window_sec` of `0` is falsy in Python, so the time clause is skipped then. -/
def flushCond (cfg : InsightConfig) (ev : Ev)
    (bufs1 : List (Value × List Record)) (ts1 : List (Value × Int))
    (key : Value) : Bool :=
  decide (cfg.batch_size ≤ ((getBuf bufs1 key).length : Int)) ||
  (match cfg.window_sec with
   | none => false
   | some w =>
     decide (w ≠ 0) && decide (w ≤ ev.t2 - ((assocFind ts1 key).getD 0)))

/-- `for out in flush(key): yield out` together with the clearing side
effects of lines 90–91: nothing happens on an empty buffer (the early return
of lines 44–45 fires before any network call); otherwise the next oracle
response is consumed and, on success, the buffer is emptied and the start
time dropped. -/
def doFlush (cfg : InsightConfig) (rf : Option (String → String))
    (resps : Nat → String) (key : Value) (st : SState) :
    Except String (List InsightResult × SState) :=
  let batch := getBuf st.buffers key
  if batch.isEmpty then .ok ([], st)
  else
    match flushCall cfg rf key batch (resps st.cnt) with
    | .error e => .error e
    | .ok outs =>
      .ok (outs, ⟨setBufEmpty st.buffers key, tsErase st.firstTs key,
                  st.cnt + 1⟩)

/-- One iteration of the record loop (lines 94–101): compute the group key,
append, set the start time if fresh, then flush if the line-99 condition
holds. -/
def streamStep (cfg : InsightConfig) (rf : Option (String → String))
    (resps : Nat → String) (ev : Ev) (st : SState) :
    Except String (List InsightResult × SState) :=
  let key := keyOf cfg ev.rcd
  let bufs1 := bufAppend st.buffers key ev.rcd
  let ts1 := streamStepTs cfg ev st
  let st1 : SState := ⟨bufs1, ts1, st.cnt⟩
  if flushCond cfg ev bufs1 ts1 key then doFlush cfg rf resps key st1
  else .ok ([], st1)

/-- The record loop of lines 94–101 over the whole input, accumulating the
yielded outputs in order.  An uncaught exception aborts the stream. -/
def loopPhase (cfg : InsightConfig) (rf : Option (String → String))
    (resps : Nat → String) :
    List Ev → SState → Except String (List InsightResult × SState)
  | [], st => .ok ([], st)
  | ev :: evs, st =>
    match streamStep cfg rf resps ev st with
    | .error e => .error e
    | .ok (outs, st1) =>
      match loopPhase cfg rf resps evs st1 with
      | .error e => .error e
      | .ok (outs2, st2) => .ok (outs ++ outs2, st2)

/-- Flush a fixed list of keys in order, threading the state. -/
def finalLoop (cfg : InsightConfig) (rf : Option (String → String))
    (resps : Nat → String) :
    List Value → SState → Except String (List InsightResult × SState)
  | [], st => .ok ([], st)
  | key :: keys, st =>
    match doFlush cfg rf resps key st with
    | .error e => .error e
    | .ok (outs, st1) =>
      match finalLoop cfg rf resps keys st1 with
      | .error e => .error e
      | .ok (outs2, st2) => .ok (outs ++ outs2, st2)

/-- The end-of-stream flush of lines 103–105:
`for key in list(buffers.keys()): for out in flush(key): yield out`. -/
def finalPhase (cfg : InsightConfig) (rf : Option (String → String))
    (resps : Nat → String) (st : SState) :
    Except String (List InsightResult × SState) :=
  finalLoop cfg rf resps (st.buffers.map (fun p => p.1)) st

/-- The whole of `OpenAIInsightCommand.stream` after configuration loading:
the record loop followed by the end-of-stream flush. -/
def streamRun (cfg : InsightConfig) (rf : Option (String → String))
    (resps : Nat → String) (events : List Ev) :
    Except String (List InsightResult × SState) :=
  match loopPhase cfg rf resps events initState with
  | .error e => .error e
  | .ok (o1, st) =>
    match finalPhase cfg rf resps st with
    | .error e => .error e
    | .ok (o2, st2) => .ok (o1 ++ o2, st2)

/-! ## The placeholder-substituting streamer (`openai_streaming.py`)

`_substitute_placeholders` finds every `\x7b([^\x7d]+)\x7d` match with
`re.findall` and then applies Python `str.replace` (all occurrences) for each
found name in order.  Both library calls are modelled executably below.  The
HTTP POST and its streamed body are an oracle: for each record the world
either raises at some point of the `try` block, or yields a status code and
the list of transport lines `response.iter_lines()` produces. -/

/-- Boolean prefix test on character lists. -/
def chPrefix : List Char → List Char → Bool
  | [], _ => true
  | _ :: _, [] => false
  | p :: ps, c :: cs => p = c && chPrefix ps cs

/-- Boolean substring test (Python `in` on strings). -/
def listContainsSub (pat : List Char) : List Char → Bool
  | [] => pat.isEmpty
  | c :: cs => chPrefix pat (c :: cs) || listContainsSub pat cs

/-- The scan of `re.findall(r'\x7b([^\x7d]+)\x7d', template)`: leftmost
non-overlapping matches of a brace-opened group of one or more
non-closing-brace characters, as a two-mode state machine (`none` = looking
for an opening brace, `some acc` = inside a candidate group). -/
def findPhAux : List Char → Option (List Char) → List String
  | [], _ => []
  | c :: cs, none => if c = lbrace then findPhAux cs (some []) else findPhAux cs none
  | c :: cs, some acc =>
    if c = rbrace then
      if acc.isEmpty then findPhAux cs none
      else String.mk acc :: findPhAux cs none
    else findPhAux cs (some (acc ++ [c]))

/-- `re.findall(r'\x7b([^\x7d]+)\x7d', template)` (line 63). -/
def findPlaceholders (s : String) : List String :=
  findPhAux s.data none

/-- Replace leftmost non-overlapping occurrences of `pat` by `rep`
(fuel-indexed; a hit consumes `pat.length ≥ 1` characters, a miss one). -/
def pyReplaceAux (pat rep : List Char) : Nat → List Char → List Char
  | 0, s => s
  | _+1, [] => []
  | f+1, c :: cs =>
    if chPrefix pat (c :: cs) then
      rep ++ pyReplaceAux pat rep f ((c :: cs).drop pat.length)
    else c :: pyReplaceAux pat rep f cs

/-- Model of Python `s.replace(pat, rep)` for a nonempty `pat` (the call
sites only ever pass the nonempty pattern `"\x7b" + name + "\x7d"`; the
degenerate empty pattern, which Python treats as inserting everywhere, is
mapped to the identity). -/
def pyReplace (s pat rep : String) : String :=
  if pat = "" then s
  else String.mk (pyReplaceAux pat.data rep.data (s.data.length + 1) s.data)

/-- The literal `f"\x7b\x7b\x7bplaceholder\x7d\x7d\x7d"` pattern, i.e.
`"\x7b" ++ name ++ "\x7d"`. -/
def phPattern (n : String) : String :=
  String.mk (lbrace :: n.data ++ [rbrace])

/-- Line 67: `record.get(placeholder, f"[FIELD_NOT_FOUND:\x7bplaceholder\x7d]")`
followed by the `str(...)` coercion of line 68. -/
def fieldValueText (r : Record) (n : String) : String :=
  pyStr (recGetD r n (.vStr ("[FIELD_NOT_FOUND:" ++ n ++ "]")))

/-- `OpenAIStreaming._substitute_placeholders` (lines 57–70): sequentially
`str.replace` each found placeholder with the record's value text. -/
def substitutePlaceholders (tpl : String) (r : Record) : String :=
  (findPlaceholders tpl).foldl
    (fun acc ph => pyReplace acc (phPattern ph) (fieldValueText r ph)) tpl

theorem sanity_substitute_host_count :
    substitutePlaceholders "Host \x7bhost\x7d had \x7bcount\x7d errors"
      [("host", .vStr "web1"), ("count", .vInt 3)] = "Host web1 had 3 errors" := rfl

/-! ### Python dynamic semantics of the chunk field accesses

Lines 121–125 run `"choices" in chunk_data`, `len(...)`, `[0]`, `"delta" in
choice`, `choice["delta"]["content"]` and `openai_response += content` on a
value of unknown shape; depending on the shape these either produce a value,
are skipped, or raise (only `json.JSONDecodeError` is caught by the inner
`try`).  These helpers give each Python primitive its semantics on our JSON
values. -/

/-- Python `key in j` for a string key: dict key test, list membership test
(a string equals only an equal string), substring test on strings; raises
`TypeError` on non-iterables. -/
def pyContains (j : Json) (k : String) : Except String Bool :=
  match j with
  | .obj kvs => .ok (assocFind kvs k).isSome
  | .arr xs =>
    .ok (xs.any (fun x => match x with | .str s => s = k | _ => false))
  | .str s => .ok (listContainsSub k.data s.data)
  | _ => .error "TypeError: argument is not iterable"

/-- Python `j[k]` for a string key. -/
def pyIndexStr (j : Json) (k : String) : Except String Json :=
  match j with
  | .obj kvs =>
    match assocFind kvs k with
    | some v => .ok v
    | none => .error "KeyError"
  | .str _ => .error "TypeError: string indices must be integers"
  | .arr _ => .error "TypeError: list indices must be integers"
  | _ => .error "TypeError: object is not subscriptable"

/-- Python `len(j)`. -/
def pyLen (j : Json) : Except String Nat :=
  match j with
  | .arr xs => .ok xs.length
  | .obj kvs => .ok kvs.length
  | .str s => .ok s.length
  | _ => .error "TypeError: object has no len"

/-- Python `j[0]`. -/
def pyIndex0 (j : Json) : Except String Json :=
  match j with
  | .arr (x :: _) => .ok x
  | .arr [] => .error "IndexError"
  | .str s =>
    match s.data with
    | c :: _ => .ok (.str (String.mk [c]))
    | [] => .error "IndexError"
  | .obj _ => .error "KeyError"
  | _ => .error "TypeError: object is not subscriptable"

/-- Lines 121–125 applied to one parsed chunk: extract the first choice's
delta content if the guards pass, return `none` if a guard fails benignly,
and propagate any `TypeError`/`KeyError`/`IndexError` the Python expressions
would raise (including `openai_response += content` on a non-string). -/
def chunkExtract (chunk : Json) : Except String (Option String) := do
  let hasChoices ← pyContains chunk "choices"
  if hasChoices then
    let choices ← pyIndexStr chunk "choices"
    let n ← pyLen choices
    if 0 < n then
      let choice ← pyIndex0 choices
      let hasDelta ← pyContains choice "delta"
      if hasDelta then
        let delta ← pyIndexStr choice "delta"
        let hasContent ← pyContains delta "content"
        if hasContent then
          let content ← pyIndexStr delta "content"
          match content with
          | .str s => pure (some s)
          | _ => .error "TypeError: can only concatenate str to str"
        else pure none
      else pure none
    else pure none
  else pure none

/-- What one transport line contributes to the loop of lines 104–129:
skipped (blank, no `data: ` prefix, undecodable JSON, or guards failing),
a content fragment to append, the `[DONE]` break, or an uncaught exception. -/
inductive LineStep where
  | skip
  | append (s : String)
  | done
  | raise (e : String)
deriving DecidableEq

/-- Classify one line as the loop body of lines 104–129 does.  The
truthiness test `if line:` skips the empty line before stripping. -/
def lineStep (l : String) : LineStep :=
  if l = "" then .skip
  else
    let t := pyStrip l
    if chPrefix "data: ".data t.data then
      let d := String.mk (t.data.drop 6)
      if d = "[DONE]" then .done
      else
        match jsonParse d with
        | none => .skip
        | some j =>
          match chunkExtract j with
          | .error e => .raise e
          | .ok none => .skip
          | .ok (some s) => .append s
    else .skip

/-- The accumulation loop of lines 101–129 over the transport lines:
append fragments in order, stop at `[DONE]`, propagate uncaught
exceptions. -/
def consumeLinesAux : List String → String → Except String String
  | [], acc => .ok acc
  | l :: ls, acc =>
    match lineStep l with
    | .skip => consumeLinesAux ls acc
    | .append s => consumeLinesAux ls (acc ++ s)
    | .done => .ok acc
    | .raise e => .error e

/-- The accumulated `openai_response` for a given list of transport lines. -/
def consumeLines (lines : List String) : Except String String :=
  consumeLinesAux lines ""

theorem sanity_consumeLines_hello :
    consumeLines
      ["data: \x7b\"choices\":[\x7b\"delta\":\x7b\"content\":\"Hel\"\x7d\x7d]\x7d",
       "data: \x7b\"choices\":[\x7b\"delta\":\x7b\"content\":\"lo\"\x7d\x7d]\x7d",
       "data: [DONE]"] = .ok "Hello" := rfl

/-- The world's behaviour for one record's HTTP interaction: either some
expression of the `try` block raises with a message, or the POST yields a
status code and the transport lines of the streamed body. -/
inductive HttpOutcome where
  | raises (msg : String)
  | responds (status_code : Nat) (lines : List String)

/-- Processing of a single record inside `_process_batch` (lines 76–162):
build the output record on success (status from the HTTP code, the
accumulated response text), or the exception record (status `"exception"`,
the message in `error_message`) when anything in the `try` block raises —
including a raise while consuming the streamed lines.  `t` is the clock
reading stored in `_time`; `model` is the `OPENAI_MODEL` environment
value. -/
def processOne (prompt model : String) (t : Int) (o : HttpOutcome)
    (r : Record) : Record :=
  match o with
  | .raises msg =>
    pyUpdate r [("_time", .vFloat t),
                ("original_prompt", .vStr prompt),
                ("processed_prompt", .vStr (substitutePlaceholders prompt r)),
                ("status", .vStr "exception"),
                ("error_message", .vStr msg),
                ("openai_response", .vStr ""),
                ("model", .vStr model)]
  | .responds code lines =>
    match consumeLines lines with
    | .error e =>
      pyUpdate r [("_time", .vFloat t),
                  ("original_prompt", .vStr prompt),
                  ("processed_prompt", .vStr (substitutePlaceholders prompt r)),
                  ("status", .vStr "exception"),
                  ("error_message", .vStr e),
                  ("openai_response", .vStr ""),
                  ("model", .vStr model)]
    | .ok text =>
      let base :=
        pyUpdate r [("_time", .vFloat t),
                    ("original_prompt", .vStr prompt),
                    ("processed_prompt", .vStr (substitutePlaceholders prompt r)),
                    ("status", .vStr (if code = 200 then "success" else "error")),
                    ("response_code", .vInt code),
                    ("openai_response", .vStr text),
                    ("model", .vStr model)]
      if code ≠ 200 then
        dictSet base "error_message" (.vStr ("OpenAI API error: " ++ toString code))
      else base

/-- `OpenAIStreaming._process_batch` (lines 72–162): process each record of
the batch in order; `idx` is the global position of the batch's first record
in the input, indexing the per-record oracles. -/
def processBatch (prompt model : String) (env : Nat → HttpOutcome)
    (times : Nat → Int) : Nat → List Record → List Record
  | _, [] => []
  | idx, r :: rs =>
    processOne prompt model (times idx) (env idx) r ::
      processBatch prompt model env times (idx + 1) rs

/-- The batching loop of `OpenAIStreaming.stream` (lines 42–55): accumulate
records, hand off every full batch of 10, and process the remainder at the
end. -/
def streamLoop (prompt model : String) (env : Nat → HttpOutcome)
    (times : Nat → Int) : List Record → Nat → List Record → List Record
  | [], idx, acc => processBatch prompt model env times idx acc
  | r :: rs, idx, acc =>
    let b := acc ++ [r]
    if 10 ≤ b.length then
      processBatch prompt model env times idx b ++
        streamLoop prompt model env times rs (idx + b.length) []
    else streamLoop prompt model env times rs idx b

/-- `OpenAIStreaming.stream` after the configuration check. -/
def streamerStream (prompt model : String) (env : Nat → HttpOutcome)
    (times : Nat → Int) (records : List Record) : List Record :=
  streamLoop prompt model env times records 0 []

/-! ## Basic lemmas about the dictionary and buffer operations -/

theorem assocFind_append {α β : Type} [DecidableEq α]
    (l₁ l₂ : List (α × β)) (k : α) :
    assocFind (l₁ ++ l₂) k = ((assocFind l₁ k).orElse (fun _ => assocFind l₂ k)) := by
  induction l₁ with
  | nil => simp [assocFind]
  | cons p rest ih =>
    by_cases h : p.1 = k <;> simp [assocFind, h, ih]

theorem assocFind_mapVal_self {α β : Type} [DecidableEq α]
    (l : List (α × β)) (k : α) (f : β → β) :
    assocFind (l.map (fun p => if p.1 = k then (p.1, f p.2) else p)) k =
      (assocFind l k).map f := by
  induction l with
  | nil => simp [assocFind]
  | cons p rest ih =>
    by_cases h : p.1 = k <;> simp [assocFind, h, ih]

theorem assocFind_mapVal_ne {α β : Type} [DecidableEq α]
    (l : List (α × β)) (k k' : α) (f : β → β) (hne : k' ≠ k) :
    assocFind (l.map (fun p => if p.1 = k then (p.1, f p.2) else p)) k' =
      assocFind l k' := by
  induction l with
  | nil => simp [assocFind]
  | cons p rest ih =>
    by_cases h : p.1 = k
    · simp [assocFind, h, Ne.symm hne, ih]
    · simp [assocFind, h, ih]

theorem assocFind_filter_ne {α β : Type} [DecidableEq α]
    (l : List (α × β)) (k k' : α) (hne : k' ≠ k) :
    assocFind (l.filter (fun p => p.1 ≠ k)) k' = assocFind l k' := by
  simp only [ne_eq, decide_not]
  induction l with
  | nil => simp [assocFind]
  | cons p rest ih =>
    by_cases h : p.1 = k
    · have hk : ¬ (k = k') := fun e => hne e.symm
      simp [List.filter_cons, assocFind, h, hk, ih]
    · simp [List.filter_cons, assocFind, h, ih]

theorem assocFind_filter_self {α β : Type} [DecidableEq α]
    (l : List (α × β)) (k : α) :
    assocFind (l.filter (fun p => p.1 ≠ k)) k = none := by
  simp only [ne_eq, decide_not]
  induction l with
  | nil => simp [assocFind]
  | cons p rest ih =>
    by_cases h : p.1 = k <;> simp [List.filter_cons, assocFind, h, ih]

theorem assocFind_eq_none_iff {α β : Type} [DecidableEq α]
    (l : List (α × β)) (k : α) :
    assocFind l k = none ↔ k ∉ l.map (fun p => p.1) := by
  induction l with
  | nil => simp [assocFind]
  | cons p rest ih =>
    by_cases h : p.1 = k
    · simp [assocFind, h, ih]
    · simp [assocFind, h, ih]
      tauto

theorem assocFind_nodup_mem {α β : Type} [DecidableEq α]
    (l : List (α × β)) (p : α × β)
    (hnd : (l.map (fun q => q.1)).Nodup) (hmem : p ∈ l) :
    assocFind l p.1 = some p.2 := by
  induction l with
  | nil => simp at hmem
  | cons q rest ih =>
    simp only [List.map_cons, List.nodup_cons] at hnd
    rcases List.mem_cons.mp hmem with h | h
    · simp [assocFind, h]
    · have hq : q.1 ≠ p.1 := by
        intro e
        exact hnd.1 (e ▸ (List.mem_map.mpr ⟨p, h, rfl⟩))
      simp [assocFind, hq, ih hnd.2 h]

theorem getBuf_bufAppend_self (bufs : List (Value × List Record))
    (key : Value) (r : Record) :
    getBuf (bufAppend bufs key r) key = getBuf bufs key ++ [r] := by
  unfold bufAppend getBuf
  by_cases h : (assocFind bufs key).isSome
  · rcases Option.isSome_iff_exists.mp h with ⟨v, hv⟩
    rw [if_pos h, assocFind_mapVal_self bufs key (fun b => b ++ [r]), hv]
    simp
  · have hn : assocFind bufs key = none := Option.not_isSome_iff_eq_none.mp h
    rw [if_neg h, assocFind_append, hn]
    simp [assocFind]

theorem getBuf_bufAppend_ne (bufs : List (Value × List Record))
    (key k' : Value) (r : Record) (hne : k' ≠ key) :
    getBuf (bufAppend bufs key r) k' = getBuf bufs k' := by
  unfold bufAppend getBuf
  by_cases h : (assocFind bufs key).isSome
  · rw [if_pos h, assocFind_mapVal_ne bufs key k' (fun b => b ++ [r]) hne]
  · rw [if_neg h, assocFind_append]
    simp [assocFind, Ne.symm hne]

theorem getBuf_setBufEmpty_self (bufs : List (Value × List Record))
    (key : Value) :
    getBuf (setBufEmpty bufs key) key = [] := by
  unfold setBufEmpty getBuf
  rw [assocFind_mapVal_self bufs key (fun _ => ([] : List Record))]
  cases assocFind bufs key <;> simp

theorem getBuf_setBufEmpty_ne (bufs : List (Value × List Record))
    (key k' : Value) (hne : k' ≠ key) :
    getBuf (setBufEmpty bufs key) k' = getBuf bufs k' := by
  unfold setBufEmpty getBuf
  rw [assocFind_mapVal_ne bufs key k' (fun _ => ([] : List Record)) hne]

theorem bufAppend_keys (bufs : List (Value × List Record)) (key : Value)
    (r : Record) :
    (bufAppend bufs key r).map (fun p => p.1) =
      if (assocFind bufs key).isSome then bufs.map (fun p => p.1)
      else bufs.map (fun p => p.1) ++ [key] := by
  unfold bufAppend
  by_cases h : (assocFind bufs key).isSome
  · simp only [h, if_true, List.map_map]
    refine List.map_congr_left ?_
    intro p _
    by_cases hp : p.1 = key <;> simp [hp]
  · simp [h]

theorem setBufEmpty_keys (bufs : List (Value × List Record)) (key : Value) :
    (setBufEmpty bufs key).map (fun p => p.1) = bufs.map (fun p => p.1) := by
  unfold setBufEmpty
  rw [List.map_map]
  refine List.map_congr_left ?_
  intro p _
  by_cases hp : p.1 = key <;> simp [hp]

/-! ## Flush-level lemmas -/

theorem flushItems_length (cfg : InsightConfig) (rf : Option (String → String))
    (batch : List Record) :
    (flushItems cfg rf batch).length = batch.length := by
  simp [flushItems]

theorem flushCall_ok_shape (cfg : InsightConfig) (rf : Option (String → String))
    (key : Value) (batch : List Record) (respText : String)
    (outs : List InsightResult) (hne : batch ≠ [])
    (hok : flushCall cfg rf key batch respText = .ok outs) :
    ∃ ins ano act, outs =
      [{ group := key, count := batch.length,
         insights := ins, anomalies := ano, actions := act }] := by
  unfold flushCall at hok
  rw [if_neg (by simpa using hne)] at hok
  revert hok
  cases hp : (match jsonParse respText with
              | some j => j
              | none => parseFallback respText) with
  | obj kvs =>
    intro hok
    have h2 := (Except.ok.inj hok).symm
    rw [flushItems_length] at h2
    exact ⟨_, _, _, h2⟩
  | null => intro hok; cases hok
  | bool b => intro hok; cases hok
  | num s => intro hok; cases hok
  | str s => intro hok; cases hok
  | arr xs => intro hok; cases hok

/-- C10: in the summarizer, when a `group_by` field is configured but an
incoming record lacks that field, the record's computed group key is the
fixed sentinel `"__all__"` — the same key used when no grouping is
configured — and when the field is present the key is the record's value for
it. -/
theorem c10_group_key_routing (cfg : InsightConfig) (r : Record) :
    (∀ g, groupFieldOf cfg = some g → g ≠ "" → recGet r g = none →
      keyOf cfg r = .vStr "__all__") ∧
    (∀ g v, groupFieldOf cfg = some g → g ≠ "" → recGet r g = some v →
      keyOf cfg r = v) ∧
    (groupFieldOf cfg = none → keyOf cfg r = .vStr "__all__") := by
  refine ⟨?_, ?_, ?_⟩
  · intro g hg hne hmiss
    simp [keyOf, hg, hne, recGetD, hmiss]
  · intro g v hg hne hfound
    simp [keyOf, hg, hne, recGetD, hfound]
  · intro hg
    simp [keyOf, hg]

theorem c10_group_key_routing_witness :
    keyOf ⟨"msg", "summarize", some "host", 50, none⟩ [("msg", .vStr "x")] =
      .vStr "__all__" ∧
    keyOf ⟨"msg", "summarize", some "host", 50, none⟩ [("host", .vStr "web1")] =
      .vStr "web1" := by
  constructor
  · exact (c10_group_key_routing _ _).1 "host" rfl (by decide) rfl
  · exact (c10_group_key_routing _ _).2.1 "host" (.vStr "web1") rfl (by decide) rfl

/-- C5: during flush, the redaction function is applied to every
string-valued projected field of every batched item (the redacted items are
exactly the plain projections with the redaction mapped over every field
value, string values rewritten, non-strings untouched); and the default
pattern rewrites `api_key=SECRET123` to `api_key=***`, preserving the
captured key name. -/
theorem c5_redaction_applied :
    (∀ (cfg : InsightConfig) (batch : List Record),
      flushItems cfg (some defaultRedact) batch =
        (flushItems cfg none batch).map
          (fun item => item.map (fun kv => (kv.1, redactValue defaultRedact kv.2)))) ∧
    defaultRedact "api_key=SECRET123" = "api_key=***" := by
  constructor
  · intro cfg batch
    simp [flushItems, applyRedact]
  · rfl

/-- C3: for every flush of a non-empty buffer of `n` records, the request
payload's `data` array is the `batch_size`-prefix of the projected items
(`min n batch_size` items, in buffer order), while the payload's
`sample_count` and the emitted record's `_count` both equal the full count
`n`. -/
theorem c3_truncation (cfg : InsightConfig) (rf : Option (String → String))
    (key : Value) (batch : List Record) (respText : String)
    (outs : List InsightResult) (hne : batch ≠ [])
    (hok : flushCall cfg rf key batch respText = .ok outs) :
    (flushPayload cfg rf batch).data =
      (flushItems cfg rf batch).take cfg.batch_size.toNat ∧
    (flushPayload cfg rf batch).data.length =
      min cfg.batch_size.toNat batch.length ∧
    (flushPayload cfg rf batch).sample_count = batch.length ∧
    ∀ o ∈ outs, o.count = batch.length := by
  refine ⟨rfl, ?_, ?_, ?_⟩
  · simp [flushPayload, List.length_take, flushItems_length]
  · simp [flushPayload, flushItems_length]
  · intro o ho
    rcases flushCall_ok_shape cfg rf key batch respText outs hne hok with
      ⟨ins, ano, act, h⟩
    subst h
    simp only [List.mem_singleton] at ho
    subst ho
    rfl

theorem c3_truncation_witness :
    (flushPayload ⟨"m", "summarize", none, 50, none⟩ none
        (List.replicate 120 [("m", Value.vStr "a")])).sample_count = 120 ∧
    (flushPayload ⟨"m", "summarize", none, 50, none⟩ none
        (List.replicate 120 [("m", Value.vStr "a")])).data.length = 50 ∧
    flushCall ⟨"m", "summarize", none, 50, none⟩ none (Value.vStr "__all__")
        (List.replicate 120 [("m", Value.vStr "a")]) "\x7b\x7d" =
      .ok [{ group := Value.vStr "__all__", count := 120,
             insights := "[]", anomalies := "[]", actions := "[]" }] := by
  have h := c3_truncation ⟨"m", "summarize", none, 50, none⟩ none
    (Value.vStr "__all__") (List.replicate 120 [("m", Value.vStr "a")]) "\x7b\x7d"
    [{ group := Value.vStr "__all__", count := 120,
       insights := "[]", anomalies := "[]", actions := "[]" }]
    (by decide) rfl
  exact ⟨h.2.2.1.trans (by decide), h.2.1.trans (by decide), rfl⟩

/-- C6: for every flush whose remote response text fails to parse as JSON,
the flush does not raise: it emits exactly one output record whose
`insights` field is the serialization of exactly one fallback entry with
title `ParseError`, the raw response text as detail and confidence `0.3`,
with empty `anomalies`/`actions`, and the flush completes normally, clearing
the group's buffer and start time. -/
theorem c6_parse_failure_fallback (cfg : InsightConfig)
    (rf : Option (String → String)) (resps : Nat → String) (key : Value)
    (st : SState) (outs : List InsightResult) (st' : SState)
    (hne : getBuf st.buffers key ≠ [])
    (hbad : (jsonParse (resps st.cnt)).isNone = true)
    (hok : doFlush cfg rf resps key st = .ok (outs, st')) :
    outs = [{ group := key, count := (getBuf st.buffers key).length,
              insights := jsonDumps (.arr [.obj
                [("title", .str "ParseError"),
                 ("detail", .str (resps st.cnt)),
                 ("confidence", .num "0.3")]]),
              anomalies := "[]", actions := "[]" }] ∧
    getBuf st'.buffers key = [] ∧
    assocFind st'.firstTs key = none := by
  have hparse : jsonParse (resps st.cnt) = none :=
    Option.isNone_iff_eq_none.mp hbad
  unfold doFlush at hok
  rw [if_neg (by simpa using hne)] at hok
  unfold flushCall at hok
  rw [if_neg (by simpa using hne), hparse] at hok
  simp only [parseFallback] at hok
  have h := Except.ok.inj hok
  simp only [Prod.mk.injEq] at h
  obtain ⟨ho, hs⟩ := h
  subst hs
  refine ⟨?_, ?_, ?_⟩
  · rw [← ho]
    simp [flushItems_length, jGetD, assocFind, jsonDumps]
    rfl
  · exact getBuf_setBufEmpty_self _ _
  · simpa [tsErase] using assocFind_filter_self st.firstTs key

theorem c6_parse_failure_fallback_witness :
    (jsonParse "not json").isNone = true ∧
    doFlush ⟨"m", "summarize", none, 50, none⟩ none (fun _ => "not json")
        (Value.vStr "__all__")
        ⟨[(Value.vStr "__all__", [[("m", Value.vStr "x")]])],
         [(Value.vStr "__all__", 0)], 0⟩ =
      .ok ([{ group := Value.vStr "__all__", count := 1,
              insights := "[\x7b\"title\": \"ParseError\", \"detail\": \"not json\", \"confidence\": 0.3\x7d]",
              anomalies := "[]", actions := "[]" }],
           ⟨[(Value.vStr "__all__", [])], [], 1⟩) ∧
    getBuf ([(Value.vStr "__all__", ([] : List Record))]) (Value.vStr "__all__") = [] := by
  refine ⟨by decide, rfl, ?_⟩
  exact (c6_parse_failure_fallback ⟨"m", "summarize", none, 50, none⟩ none
    (fun _ => "not json") (Value.vStr "__all__")
    ⟨[(Value.vStr "__all__", [[("m", Value.vStr "x")]])],
     [(Value.vStr "__all__", 0)], 0⟩ _ _ (by decide) (by decide) rfl).2.1

/-- C2 (amended): for every append of a record, if `window_sec` is configured
as a positive integer and the elapsed time since the buffer's start time is
at least `window_sec`, the group is flushed immediately after the append:
the step emits exactly one output record and leaves the group's buffer
empty.  (`window_sec = 0` is falsy in Python's `self.window_sec and ...`
test, so a zero window never triggers a time-based flush — see the
counterexample.) -/
theorem c2_window_flush (cfg : InsightConfig) (rf : Option (String → String))
    (resps : Nat → String) (ev : Ev) (st : SState)
    (outs : List InsightResult) (st' : SState) (w : Int)
    (hw : cfg.window_sec = some w) (hpos : 0 < w)
    (helapsed : w ≤ ev.t2 -
      ((assocFind (streamStepTs cfg ev st) (keyOf cfg ev.rcd)).getD 0))
    (hok : streamStep cfg rf resps ev st = .ok (outs, st')) :
    getBuf st'.buffers (keyOf cfg ev.rcd) = [] ∧ outs.length = 1 := by
  have hcond : flushCond cfg ev (bufAppend st.buffers (keyOf cfg ev.rcd) ev.rcd)
      (streamStepTs cfg ev st) (keyOf cfg ev.rcd) = true := by
    unfold flushCond
    rw [hw]
    simp only [Bool.or_eq_true, Bool.and_eq_true, decide_eq_true_eq]
    right
    exact ⟨by omega, helapsed⟩
  simp only [streamStep, hcond, if_true] at hok
  have hb : getBuf (bufAppend st.buffers (keyOf cfg ev.rcd) ev.rcd)
      (keyOf cfg ev.rcd) = getBuf st.buffers (keyOf cfg ev.rcd) ++ [ev.rcd] :=
    getBuf_bufAppend_self _ _ _
  have hbe : (getBuf (bufAppend st.buffers (keyOf cfg ev.rcd) ev.rcd)
      (keyOf cfg ev.rcd)).isEmpty = false := by simp [hb]
  simp only [doFlush, hbe, Bool.false_eq_true, if_false] at hok
  revert hok
  cases hfc : flushCall cfg rf (keyOf cfg ev.rcd)
      (getBuf (bufAppend st.buffers (keyOf cfg ev.rcd) ev.rcd) (keyOf cfg ev.rcd))
      (resps st.cnt) with
  | error e => intro hok; cases hok
  | ok outs0 =>
    intro hok
    have h := Except.ok.inj hok
    simp only [Prod.mk.injEq] at h
    obtain ⟨ho, hs⟩ := h
    subst hs
    subst ho
    constructor
    · exact getBuf_setBufEmpty_self _ _
    · rcases flushCall_ok_shape _ _ _ _ _ _ (by simp [hb]) hfc with ⟨i, a, c, hsh⟩
      simp [hsh]

theorem c2_window_flush_witness :
    streamStep ⟨"m", "summarize", none, 50, some 5⟩ none (fun _ => "\x7b\x7d")
        ⟨[("m", Value.vStr "a")], 0, 10⟩ initState =
      .ok ([{ group := Value.vStr "__all__", count := 1, insights := "[]",
              anomalies := "[]", actions := "[]" }],
           ⟨[(Value.vStr "__all__", [])], [], 1⟩) ∧
    getBuf ([(Value.vStr "__all__", ([] : List Record))]) (Value.vStr "__all__") = [] ∧
    [({ group := Value.vStr "__all__", count := 1, insights := "[]",
        anomalies := "[]", actions := "[]" } : InsightResult)].length = 1 := by
  have h := c2_window_flush ⟨"m", "summarize", none, 50, some 5⟩ none
    (fun _ => "\x7b\x7d") ⟨[("m", Value.vStr "a")], 0, 10⟩ initState
    [{ group := Value.vStr "__all__", count := 1, insights := "[]",
       anomalies := "[]", actions := "[]" }]
    ⟨[(Value.vStr "__all__", [])], [], 1⟩ 5 rfl (by decide) (by decide) rfl
  exact ⟨rfl, h.1, h.2⟩

/-- C2 (counterexample to the claim as stated): with `window_sec` configured
as `0` and an elapsed time of `100 ≥ 0`, the append does not flush — the
step emits nothing and the record stays buffered — because the Python
condition `self.window_sec and ...` is falsy for the integer `0`. -/
theorem c2_window_flush_counterexample :
    streamStep ⟨"m", "summarize", none, 50, some 0⟩ none (fun _ => "\x7b\x7d")
        ⟨[("m", Value.vStr "a")], 0, 100⟩ initState =
      .ok ([], ⟨[(Value.vStr "__all__", [[("m", Value.vStr "a")]])],
                [(Value.vStr "__all__", 0)], 0⟩) ∧
    [[(("m" : String), Value.vStr "a")]] ≠ ([] : List (List (String × Value))) ∧
    ((0 : Int) ≤ (100 : Int) - 0) := by
  exact ⟨rfl, by decide, by decide⟩

/-! ## Stream-level invariants and structural lemmas -/

/-- The state after the append and start-time stages of one record-loop
iteration (lines 96–98), before the flush check. -/
def stepState (cfg : InsightConfig) (ev : Ev) (st : SState) : SState :=
  ⟨bufAppend st.buffers (keyOf cfg ev.rcd) ev.rcd, streamStepTs cfg ev st,
   st.cnt⟩

/-- Buffer keys are pairwise distinct (Python dict keys). -/
def NodupKeys (st : SState) : Prop :=
  (st.buffers.map (fun p => p.1)).Nodup

/-- Every buffer strictly below the batch size between loop iterations. -/
def BufBound (cfg : InsightConfig) (st : SState) : Prop :=
  ∀ p ∈ st.buffers, (p.2.length : Int) < cfg.batch_size

/-- A start-time entry exists only for keys with a non-empty buffer. -/
def TsDom (st : SState) : Prop :=
  ∀ k, (assocFind st.firstTs k).isSome → getBuf st.buffers k ≠ []

theorem mem_bufAppend (bufs : List (Value × List Record)) (key : Value)
    (r : Record) (p : Value × List Record) (hp : p ∈ bufAppend bufs key r) :
    (∃ q ∈ bufs, p = if q.1 = key then (q.1, q.2 ++ [r]) else q) ∨
      p = (key, [r]) := by
  unfold bufAppend at hp
  by_cases h : (assocFind bufs key).isSome
  · rw [if_pos h] at hp
    rcases List.mem_map.mp hp with ⟨q, hq, he⟩
    exact Or.inl ⟨q, hq, he.symm⟩
  · rw [if_neg h] at hp
    rcases List.mem_append.mp hp with h2 | h2
    · left
      refine ⟨p, h2, ?_⟩
      have hne : p.1 ≠ key := by
        intro e
        have := (assocFind_eq_none_iff bufs key).mp
          (Option.not_isSome_iff_eq_none.mp h)
        exact this (List.mem_map.mpr ⟨p, h2, e⟩)
      simp [hne]
    · right
      simpa using h2

theorem mem_setBufEmpty (bufs : List (Value × List Record)) (key : Value)
    (p : Value × List Record) (hp : p ∈ setBufEmpty bufs key) :
    ∃ q ∈ bufs, p = if q.1 = key then (q.1, ([] : List Record)) else q := by
  unfold setBufEmpty at hp
  rcases List.mem_map.mp hp with ⟨q, hq, he⟩
  exact ⟨q, hq, he.symm⟩

theorem nodupKeys_stepState (cfg : InsightConfig) (ev : Ev) (st : SState)
    (hnd : NodupKeys st) : NodupKeys (stepState cfg ev st) := by
  unfold NodupKeys stepState at *
  simp only
  rw [bufAppend_keys]
  by_cases h : (assocFind st.buffers (keyOf cfg ev.rcd)).isSome
  · simpa [h] using hnd
  · rw [if_neg h]
    have hmem : keyOf cfg ev.rcd ∉ st.buffers.map (fun p => p.1) :=
      (assocFind_eq_none_iff _ _).mp (Option.not_isSome_iff_eq_none.mp h)
    simp [List.nodup_append, hnd, hmem]

theorem tsDom_stepState (cfg : InsightConfig) (ev : Ev) (st : SState)
    (hts : TsDom st) : TsDom (stepState cfg ev st) := by
  intro k hk
  unfold stepState at *
  simp only at hk ⊢
  by_cases hkey : k = keyOf cfg ev.rcd
  · subst hkey
    rw [getBuf_bufAppend_self]
    simp
  · rw [getBuf_bufAppend_ne _ _ _ _ hkey]
    apply hts
    unfold streamStepTs at hk
    by_cases h : (assocFind st.firstTs (keyOf cfg ev.rcd)).isSome
    · rwa [if_pos h] at hk
    · rw [if_neg h, assocFind_append] at hk
      rcases ho : assocFind st.firstTs k with _ | v
      · rw [ho] at hk
        simp [assocFind] at hk
        exact absurd hk (fun e => hkey e.symm)
      · simp [ho]

theorem nodupKeys_flushedState (st : SState) (key : Value)
    (hnd : NodupKeys st) :
    NodupKeys ⟨setBufEmpty st.buffers key, tsErase st.firstTs key,
               st.cnt + 1⟩ := by
  unfold NodupKeys at *
  simpa [setBufEmpty_keys] using hnd

theorem tsDom_flushedState (st : SState) (key : Value) (hts : TsDom st) :
    TsDom ⟨setBufEmpty st.buffers key, tsErase st.firstTs key, st.cnt + 1⟩ := by
  intro k hk
  simp only at hk ⊢
  by_cases hkey : k = key
  · subst hkey
    rw [tsErase, assocFind_filter_self] at hk
    simp at hk
  · rw [tsErase, assocFind_filter_ne _ _ _ hkey] at hk
    rw [getBuf_setBufEmpty_ne _ _ _ hkey]
    exact hts k hk

theorem doFlush_split (cfg : InsightConfig) (rf : Option (String → String))
    (resps : Nat → String) (key : Value) (st : SState)
    (outs : List InsightResult) (st' : SState)
    (hok : doFlush cfg rf resps key st = .ok (outs, st')) :
    (getBuf st.buffers key = [] ∧ outs = [] ∧ st' = st) ∨
    (getBuf st.buffers key ≠ [] ∧
      (∃ ins ano act, outs =
        [{ group := key, count := (getBuf st.buffers key).length,
           insights := ins, anomalies := ano, actions := act }]) ∧
      st' = ⟨setBufEmpty st.buffers key, tsErase st.firstTs key,
             st.cnt + 1⟩) := by
  by_cases hbe : getBuf st.buffers key = []
  · left
    simp only [doFlush, hbe, List.isEmpty_nil, if_true] at hok
    have h := Except.ok.inj hok
    simp only [Prod.mk.injEq] at h
    exact ⟨hbe, h.1.symm, h.2.symm⟩
  · right
    have hbf : (getBuf st.buffers key).isEmpty = false := by simpa using hbe
    simp only [doFlush, hbf, Bool.false_eq_true, if_false] at hok
    revert hok
    cases hfc : flushCall cfg rf key (getBuf st.buffers key) (resps st.cnt) with
    | error e => intro hok; cases hok
    | ok outs0 =>
      intro hok
      have h := Except.ok.inj hok
      simp only [Prod.mk.injEq] at h
      obtain ⟨ho, hs⟩ := h
      refine ⟨hbe, ?_, hs.symm⟩
      rcases flushCall_ok_shape _ _ _ _ _ _ hbe hfc with ⟨i, a, c, hsh⟩
      exact ⟨i, a, c, ho ▸ hsh⟩

theorem streamStep_split (cfg : InsightConfig) (rf : Option (String → String))
    (resps : Nat → String) (ev : Ev) (st : SState)
    (outs : List InsightResult) (st' : SState)
    (hok : streamStep cfg rf resps ev st = .ok (outs, st')) :
    (flushCond cfg ev (stepState cfg ev st).buffers (stepState cfg ev st).firstTs
        (keyOf cfg ev.rcd) = false ∧
      outs = [] ∧ st' = stepState cfg ev st) ∨
    (flushCond cfg ev (stepState cfg ev st).buffers (stepState cfg ev st).firstTs
        (keyOf cfg ev.rcd) = true ∧
      doFlush cfg rf resps (keyOf cfg ev.rcd) (stepState cfg ev st) =
        .ok (outs, st')) := by
  by_cases hc : flushCond cfg ev (bufAppend st.buffers (keyOf cfg ev.rcd) ev.rcd)
      (streamStepTs cfg ev st) (keyOf cfg ev.rcd) = true
  · right
    refine ⟨hc, ?_⟩
    simpa only [streamStep, hc, if_true, stepState] using hok
  · left
    have hcf := Bool.not_eq_true _ ▸ hc
    simp only [Bool.not_eq_true] at hcf
    simp only [streamStep, hcf, Bool.false_eq_true, if_false] at hok
    have h := Except.ok.inj hok
    simp only [Prod.mk.injEq] at h
    exact ⟨hcf, h.1.symm, h.2.symm⟩

theorem assocFind_mem {α β : Type} [DecidableEq α]
    (l : List (α × β)) (k : α) (v : β) (h : assocFind l k = some v) :
    (k, v) ∈ l := by
  induction l with
  | nil => cases h
  | cons p rest ih =>
    by_cases hp : p.1 = k
    · rw [assocFind, if_pos hp] at h
      have : v = p.2 := (Option.some.inj h).symm
      subst this
      rw [← hp]
      exact List.mem_cons_self _ _
    · rw [assocFind, if_neg hp] at h
      exact List.mem_cons_of_mem _ (ih h)

theorem getBuf_lt_of_bound (cfg : InsightConfig) (st : SState) (k : Value)
    (hbs : 1 ≤ cfg.batch_size) (hbb : BufBound cfg st) :
    ((getBuf st.buffers k).length : Int) < cfg.batch_size := by
  rcases ho : assocFind st.buffers k with _ | v
  · simp only [getBuf, ho, Option.getD_none, List.length_nil, Int.ofNat_zero]
    omega
  · have hmem : (k, v) ∈ st.buffers := assocFind_mem _ _ _ ho
    have := hbb _ hmem
    simpa [getBuf, ho] using this

theorem bufBound_flushedOf (cfg : InsightConfig)
    (bufs : List (Value × List Record)) (key : Value)
    (hbs : 1 ≤ cfg.batch_size)
    (hbb : ∀ p ∈ bufs, p.1 ≠ key → (p.2.length : Int) < cfg.batch_size) :
    ∀ p ∈ setBufEmpty bufs key, (p.2.length : Int) < cfg.batch_size := by
  intro p hp
  rcases mem_setBufEmpty _ _ _ hp with ⟨q, hq, he⟩
  by_cases hqk : q.1 = key
  · subst he
    simp only [hqk, if_true]
    simpa using hbs
  · subst he
    simp only [hqk, if_false]
    exact hbb q hq hqk

theorem streamStep_bound (cfg : InsightConfig) (rf : Option (String → String))
    (resps : Nat → String) (ev : Ev) (st : SState)
    (outs : List InsightResult) (st' : SState)
    (hbs : 1 ≤ cfg.batch_size) (hnd : NodupKeys st) (hbb : BufBound cfg st)
    (hok : streamStep cfg rf resps ev st = .ok (outs, st')) :
    (∀ o ∈ outs, (o.count : Int) ≤ cfg.batch_size) ∧
      NodupKeys st' ∧ BufBound cfg st' := by
  have hold := getBuf_lt_of_bound cfg st (keyOf cfg ev.rcd) hbs hbb
  have hnew : getBuf (stepState cfg ev st).buffers (keyOf cfg ev.rcd) =
      getBuf st.buffers (keyOf cfg ev.rcd) ++ [ev.rcd] :=
    getBuf_bufAppend_self _ _ _
  have happmem : ∀ p ∈ (stepState cfg ev st).buffers, p.1 ≠ keyOf cfg ev.rcd →
      (p.2.length : Int) < cfg.batch_size := by
    intro p hp hpk
    rcases mem_bufAppend _ _ _ _ hp with ⟨q, hq, he⟩ | he
    · by_cases hqk : q.1 = keyOf cfg ev.rcd
      · rw [he] at hpk
        simp [hqk] at hpk
      · rw [he, if_neg hqk]
        exact hbb q hq
    · rw [he] at hpk
      simp at hpk
  rcases streamStep_split cfg rf resps ev st outs st' hok with
    ⟨hc, ho, hs⟩ | ⟨hc, hdf⟩
  · subst ho
    subst hs
    refine ⟨by simp, nodupKeys_stepState cfg ev st hnd, ?_⟩
    have hsize : ¬ (cfg.batch_size ≤
        ((getBuf (stepState cfg ev st).buffers (keyOf cfg ev.rcd)).length : Int)) := by
      intro hle
      have : flushCond cfg ev (stepState cfg ev st).buffers
          (stepState cfg ev st).firstTs (keyOf cfg ev.rcd) = true := by
        unfold flushCond
        simp only [Bool.or_eq_true, decide_eq_true_eq]
        exact Or.inl hle
      rw [this] at hc
      cases hc
    intro p hp
    rcases mem_bufAppend _ _ _ _ hp with ⟨q, hq, he⟩ | he
    · by_cases hqk : q.1 = keyOf cfg ev.rcd
      · subst he
        rw [if_pos hqk]
      
        have hqv : getBuf st.buffers (keyOf cfg ev.rcd) = q.2 := by
          rw [← hqk]
          exact (by
            unfold getBuf
            rw [assocFind_nodup_mem st.buffers q hnd hq]
            rfl)
        rw [hnew, hqv] at hsize
        simp only [List.length_append, List.length_singleton] at hsize
        simp only [List.length_append, List.length_singleton]
        omega
    
      · subst he
        rw [if_neg hqk]
        exact hbb q hq
    · subst he
      rw [hnew] at hsize
      simp only [List.length_append, List.length_singleton] at hsize
      simp only [List.length_singleton]
      omega
  · rcases doFlush_split cfg rf resps (keyOf cfg ev.rcd) (stepState cfg ev st)
        outs st' hdf with ⟨hemp, _, _⟩ | ⟨_, ⟨i, a, c, hosh⟩, hs⟩
    · rw [hnew] at hemp
      simp at hemp
    · subst hosh
      subst hs
      refine ⟨?_, ?_, ?_⟩
      · intro o hmo
        simp only [List.mem_singleton] at hmo
        subst hmo
        simp only [hnew, List.length_append, List.length_singleton]
        push_cast
        omega
      · exact nodupKeys_flushedState _ _ (nodupKeys_stepState cfg ev st hnd)
      · exact bufBound_flushedOf cfg _ _ hbs happmem

theorem doFlush_bound (cfg : InsightConfig) (rf : Option (String → String))
    (resps : Nat → String) (key : Value) (st : SState)
    (outs : List InsightResult) (st' : SState)
    (hbs : 1 ≤ cfg.batch_size) (hnd : NodupKeys st) (hbb : BufBound cfg st)
    (hok : doFlush cfg rf resps key st = .ok (outs, st')) :
    (∀ o ∈ outs, (o.count : Int) ≤ cfg.batch_size) ∧
      NodupKeys st' ∧ BufBound cfg st' := by
  rcases doFlush_split cfg rf resps key st outs st' hok with
    ⟨_, ho, hs⟩ | ⟨hne, ⟨i, a, c, hosh⟩, hs⟩
  · subst ho; subst hs
    exact ⟨by simp, hnd, hbb⟩
  · subst hosh; subst hs
    refine ⟨?_, nodupKeys_flushedState _ _ hnd, ?_⟩
    · intro o hmo
      simp only [List.mem_singleton] at hmo
      subst hmo
      have := getBuf_lt_of_bound cfg st key hbs hbb
      simp only
      omega
    · exact bufBound_flushedOf cfg _ _ hbs (fun p hp _ => hbb p hp)

theorem loopPhase_bound (cfg : InsightConfig) (rf : Option (String → String))
    (resps : Nat → String) :
    ∀ (evs : List Ev) (st : SState) (outs : List InsightResult) (st' : SState),
    1 ≤ cfg.batch_size → NodupKeys st → BufBound cfg st →
    loopPhase cfg rf resps evs st = .ok (outs, st') →
    (∀ o ∈ outs, (o.count : Int) ≤ cfg.batch_size) ∧
      NodupKeys st' ∧ BufBound cfg st' := by
  intro evs
  induction evs with
  | nil =>
    intro st outs st' _ hnd hbb hok
    unfold loopPhase at hok
    have h := Except.ok.inj hok
    simp only [Prod.mk.injEq] at h
    obtain ⟨ho, hs⟩ := h
    subst hs
    exact ⟨by simp [← ho], hnd, hbb⟩
  | cons ev evs ih =>
    intro st outs st' hbs hnd hbb hok
    unfold loopPhase at hok
    revert hok
    cases hstep : streamStep cfg rf resps ev st with
    | error e => intro hok; cases hok
    | ok p1 =>
      cases hloop : loopPhase cfg rf resps evs p1.2 with
      | error e => intro hok; simp only [hloop] at hok; cases hok
      | ok p2 =>
        intro hok
        simp only [hloop] at hok
        have h := Except.ok.inj hok
        simp only [Prod.mk.injEq] at h
        obtain ⟨ho, hs⟩ := h
        rcases streamStep_bound cfg rf resps ev st p1.1 p1.2 hbs hnd hbb
          (by rw [hstep]) with ⟨hb1, hnd1, hbb1⟩
        rcases ih p1.2 p2.1 p2.2 hbs hnd1 hbb1 (by rw [hloop]) with
          ⟨hb2, hnd2, hbb2⟩
        refine ⟨?_, hs ▸ hnd2, hs ▸ hbb2⟩
        intro o hmo
        rw [← ho] at hmo
        rcases List.mem_append.mp hmo with h2 | h2
        · exact hb1 o h2
        · exact hb2 o h2

theorem finalLoop_bound (cfg : InsightConfig) (rf : Option (String → String))
    (resps : Nat → String) :
    ∀ (keys : List Value) (st : SState) (outs : List InsightResult) (st' : SState),
    1 ≤ cfg.batch_size → NodupKeys st → BufBound cfg st →
    finalLoop cfg rf resps keys st = .ok (outs, st') →
    (∀ o ∈ outs, (o.count : Int) ≤ cfg.batch_size) ∧
      NodupKeys st' ∧ BufBound cfg st' := by
  intro keys
  induction keys with
  | nil =>
    intro st outs st' _ hnd hbb hok
    unfold finalLoop at hok
    have h := Except.ok.inj hok
    simp only [Prod.mk.injEq] at h
    obtain ⟨ho, hs⟩ := h
    subst hs
    exact ⟨by simp [← ho], hnd, hbb⟩
  | cons key keys ih =>
    intro st outs st' hbs hnd hbb hok
    unfold finalLoop at hok
    revert hok
    cases hstep : doFlush cfg rf resps key st with
    | error e => intro hok; cases hok
    | ok p1 =>
      cases hloop : finalLoop cfg rf resps keys p1.2 with
      | error e => intro hok; simp only [hloop] at hok; cases hok
      | ok p2 =>
        intro hok
        simp only [hloop] at hok
        have h := Except.ok.inj hok
        simp only [Prod.mk.injEq] at h
        obtain ⟨ho, hs⟩ := h
        rcases doFlush_bound cfg rf resps key st p1.1 p1.2 hbs hnd hbb
          (by rw [hstep]) with ⟨hb1, hnd1, hbb1⟩
        rcases ih p1.2 p2.1 p2.2 hbs hnd1 hbb1 (by rw [hloop]) with
          ⟨hb2, hnd2, hbb2⟩
        refine ⟨?_, hs ▸ hnd2, hs ▸ hbb2⟩
        intro o hmo
        rw [← ho] at hmo
        rcases List.mem_append.mp hmo with h2 | h2
        · exact hb1 o h2
        · exact hb2 o h2

/-- C1: for every input sequence, every record the summarizer emits — in
particular every flush triggered by the size condition — reports a `_count`
(the flushed buffer's size) of at most `batch_size`: buffers never exceed the
batch size at flush time, because the size condition is re-evaluated
immediately after every append. -/
theorem c1_flush_size_bound (cfg : InsightConfig)
    (rf : Option (String → String)) (resps : Nat → String) (events : List Ev)
    (outs : List InsightResult) (st' : SState)
    (hbs : 1 ≤ cfg.batch_size)
    (hok : streamRun cfg rf resps events = .ok (outs, st')) :
    ∀ o ∈ outs, (o.count : Int) ≤ cfg.batch_size := by
  unfold streamRun at hok
  revert hok
  cases hloop : loopPhase cfg rf resps events initState with
  | error e => intro hok; cases hok
  | ok p1 =>
    cases hfin : finalPhase cfg rf resps p1.2 with
    | error e => intro hok; simp only [hfin] at hok; cases hok
    | ok p2 =>
      intro hok
      simp only [hfin] at hok
      have h := Except.ok.inj hok
      simp only [Prod.mk.injEq] at h
      obtain ⟨ho, hs⟩ := h
      rcases loopPhase_bound cfg rf resps events initState p1.1 p1.2 hbs
        (by simp [NodupKeys, initState]) (by simp [BufBound, initState])
        (by rw [hloop]) with ⟨hb1, hnd1, hbb1⟩
      rcases finalLoop_bound cfg rf resps (p1.2.buffers.map (fun p => p.1))
        p1.2 p2.1 p2.2 hbs hnd1 hbb1 (by rw [← hfin]; rfl) with ⟨hb2, _, _⟩
      intro o hmo
      rw [← ho] at hmo
      rcases List.mem_append.mp hmo with h2 | h2
      · exact hb1 o h2
      · exact hb2 o h2

theorem c1_flush_size_bound_witness :
    (1 : Int) ≤ 2 ∧
    streamRun ⟨"m", "summarize", none, 2, none⟩ none (fun _ => "\x7b\x7d")
        [⟨[("m", Value.vStr "a")], 0, 0⟩, ⟨[("m", Value.vStr "b")], 1, 1⟩,
         ⟨[("m", Value.vStr "c")], 2, 2⟩] =
      .ok ([{ group := Value.vStr "__all__", count := 2, insights := "[]",
              anomalies := "[]", actions := "[]" },
            { group := Value.vStr "__all__", count := 1, insights := "[]",
              anomalies := "[]", actions := "[]" }],
           ⟨[(Value.vStr "__all__", [])], [], 2⟩) ∧
    (∀ o ∈ ([⟨Value.vStr "__all__", 2, "[]", "[]", "[]"⟩,
             ⟨Value.vStr "__all__", 1, "[]", "[]", "[]"⟩] : List InsightResult),
      (o.count : Int) ≤ 2) := by
  refine ⟨by decide, rfl, ?_⟩
  exact c1_flush_size_bound ⟨"m", "summarize", none, 2, none⟩ none
    (fun _ => "\x7b\x7d")
    [⟨[("m", Value.vStr "a")], 0, 0⟩, ⟨[("m", Value.vStr "b")], 1, 1⟩,
     ⟨[("m", Value.vStr "c")], 2, 2⟩] _ _ (by decide) rfl

theorem doFlush_wf (cfg : InsightConfig) (rf : Option (String → String))
    (resps : Nat → String) (key : Value) (st : SState)
    (outs : List InsightResult) (st' : SState)
    (hnd : NodupKeys st) (hts : TsDom st)
    (hok : doFlush cfg rf resps key st = .ok (outs, st')) :
    NodupKeys st' ∧ TsDom st' := by
  rcases doFlush_split cfg rf resps key st outs st' hok with
    ⟨_, _, hs⟩ | ⟨_, _, hs⟩
  · subst hs; exact ⟨hnd, hts⟩
  · subst hs
    exact ⟨nodupKeys_flushedState _ _ hnd, tsDom_flushedState _ _ hts⟩

theorem streamStep_wf (cfg : InsightConfig) (rf : Option (String → String))
    (resps : Nat → String) (ev : Ev) (st : SState)
    (outs : List InsightResult) (st' : SState)
    (hnd : NodupKeys st) (hts : TsDom st)
    (hok : streamStep cfg rf resps ev st = .ok (outs, st')) :
    NodupKeys st' ∧ TsDom st' := by
  rcases streamStep_split cfg rf resps ev st outs st' hok with
    ⟨_, _, hs⟩ | ⟨_, hdf⟩
  · subst hs
    exact ⟨nodupKeys_stepState cfg ev st hnd, tsDom_stepState cfg ev st hts⟩
  · exact doFlush_wf cfg rf resps (keyOf cfg ev.rcd) (stepState cfg ev st)
      outs st' (nodupKeys_stepState cfg ev st hnd)
      (tsDom_stepState cfg ev st hts) hdf

theorem loopPhase_wf (cfg : InsightConfig) (rf : Option (String → String))
    (resps : Nat → String) :
    ∀ (evs : List Ev) (st : SState) (outs : List InsightResult) (st' : SState),
    NodupKeys st → TsDom st →
    loopPhase cfg rf resps evs st = .ok (outs, st') →
    NodupKeys st' ∧ TsDom st' := by
  intro evs
  induction evs with
  | nil =>
    intro st outs st' hnd hts hok
    have h := Except.ok.inj hok
    simp only [Prod.mk.injEq] at h
    exact h.2 ▸ ⟨hnd, hts⟩
  | cons ev evs ih =>
    intro st outs st' hnd hts hok
    unfold loopPhase at hok
    revert hok
    cases hstep : streamStep cfg rf resps ev st with
    | error e => intro hok; cases hok
    | ok p1 =>
      cases hloop : loopPhase cfg rf resps evs p1.2 with
      | error e => intro hok; simp only [hloop] at hok; cases hok
      | ok p2 =>
        intro hok
        simp only [hloop] at hok
        have h := Except.ok.inj hok
        simp only [Prod.mk.injEq] at h
        rcases streamStep_wf cfg rf resps ev st p1.1 p1.2 hnd hts
          (by rw [hstep]) with ⟨hnd1, hts1⟩
        rcases ih p1.2 p2.1 p2.2 hnd1 hts1 (by rw [hloop]) with ⟨hnd2, hts2⟩
        exact h.2 ▸ ⟨hnd2, hts2⟩

theorem doFlush_ts (cfg : InsightConfig) (rf : Option (String → String))
    (resps : Nat → String) (key : Value) (st : SState)
    (outs : List InsightResult) (st' : SState)
    (hts : TsDom st)
    (hok : doFlush cfg rf resps key st = .ok (outs, st')) : TsDom st' := by
  rcases doFlush_split cfg rf resps key st outs st' hok with
    ⟨_, _, hs⟩ | ⟨_, _, hs⟩
  · subst hs; exact hts
  · subst hs; exact tsDom_flushedState _ _ hts

theorem doFlush_state (cfg : InsightConfig) (rf : Option (String → String))
    (resps : Nat → String) (key : Value) (st : SState)
    (outs : List InsightResult) (st' : SState)
    (hts : TsDom st)
    (hok : doFlush cfg rf resps key st = .ok (outs, st')) :
    outs.map (fun o => o.group) =
      (if (getBuf st.buffers key).isEmpty then [] else [key]) ∧
    getBuf st'.buffers key = [] ∧
    (∀ k, k ≠ key → getBuf st'.buffers k = getBuf st.buffers k) ∧
    assocFind st'.firstTs key = none ∧
    (∀ k, k ≠ key → assocFind st'.firstTs k = assocFind st.firstTs k) ∧
    st'.buffers.map (fun p => p.1) = st.buffers.map (fun p => p.1) := by
  rcases doFlush_split cfg rf resps key st outs st' hok with
    ⟨hemp, ho, hs⟩ | ⟨hne, ⟨i, a, c, hosh⟩, hs⟩
  · have hkeyts : assocFind st.firstTs key = none := by
      rcases hfind : assocFind st.firstTs key with _ | t
      · rfl
      · exact absurd hemp (hts key (by simp [hfind]))
    subst ho; subst hs
    exact ⟨by simp [hemp], hemp, fun k _ => rfl, hkeyts, fun k _ => rfl, rfl⟩
  · subst hosh; subst hs
    have hbe : (getBuf st.buffers key).isEmpty = false := by simpa using hne
    refine ⟨by simp [hbe], getBuf_setBufEmpty_self _ _, ?_, ?_, ?_, ?_⟩
    · intro k hk
      exact getBuf_setBufEmpty_ne _ _ _ hk
    · simpa [tsErase] using assocFind_filter_self st.firstTs key
    · intro k hk
      simpa [tsErase] using assocFind_filter_ne st.firstTs key k hk
    · exact setBufEmpty_keys _ _

theorem finalLoop_spec (cfg : InsightConfig) (rf : Option (String → String))
    (resps : Nat → String) :
    ∀ (keys : List Value) (st : SState) (outs : List InsightResult)
      (st' : SState),
    keys.Nodup → TsDom st →
    finalLoop cfg rf resps keys st = .ok (outs, st') →
    outs.map (fun o => o.group) =
      keys.filter (fun k => ¬ (getBuf st.buffers k).isEmpty) ∧
    (∀ k ∈ keys, getBuf st'.buffers k = []) ∧
    (∀ k, k ∉ keys → getBuf st'.buffers k = getBuf st.buffers k) ∧
    (∀ k, assocFind st'.firstTs k ≠ none →
      (k ∉ keys ∧ assocFind st.firstTs k ≠ none)) ∧
    st'.buffers.map (fun p => p.1) = st.buffers.map (fun p => p.1) := by
  intro keys
  induction keys with
  | nil =>
    intro st outs st' _ _ hok
    have h := Except.ok.inj hok
    simp only [Prod.mk.injEq] at h
    obtain ⟨ho, hs⟩ := h
    subst hs
    exact ⟨by simp [← ho], by simp, fun k _ => rfl,
      fun k hk => ⟨by simp, hk⟩, rfl⟩
  | cons key ks ih =>
    intro st outs st' hnd hts hok
    have hkey : key ∉ ks := (List.nodup_cons.mp hnd).1
    have hnd' : ks.Nodup := (List.nodup_cons.mp hnd).2
    unfold finalLoop at hok
    revert hok
    cases hstep : doFlush cfg rf resps key st with
    | error e => intro hok; cases hok
    | ok p1 =>
      cases hloop : finalLoop cfg rf resps ks p1.2 with
      | error e => intro hok; simp only [hloop] at hok; cases hok
      | ok p2 =>
        intro hok
        simp only [hloop] at hok
        have h := Except.ok.inj hok
        simp only [Prod.mk.injEq] at h
        obtain ⟨ho, hs⟩ := h
        subst hs
        have hts1 : TsDom p1.2 :=
          doFlush_ts cfg rf resps key st p1.1 p1.2 hts (by rw [hstep])
        rcases doFlush_state cfg rf resps key st p1.1 p1.2 hts
          (by rw [hstep]) with ⟨d1, d2, d3, d4, d5, d6⟩
        rcases ih p1.2 p2.1 p2.2 hnd' hts1 (by rw [hloop]) with
          ⟨ih1, ih2, ih3, ih4, ih5⟩
        have hfiltercongr : ks.filter (fun k => ¬ (getBuf p1.2.buffers k).isEmpty) =
            ks.filter (fun k => ¬ (getBuf st.buffers k).isEmpty) := by
          refine List.filter_congr ?_
          intro k hk
          have : k ≠ key := fun e => hkey (e ▸ hk)
          rw [d3 k this]
        refine ⟨?_, ?_, ?_, ?_, ih5.trans d6⟩
        · rw [← ho, List.map_append, d1, ih1, hfiltercongr]
          rcases hbe : (getBuf st.buffers key).isEmpty with _ | _
          · have hbe2 : ¬ (getBuf st.buffers key = []) := by simpa using hbe
            simp [List.filter_cons, hbe, hbe2]
          · have hbe2 : getBuf st.buffers key = [] := by simpa using hbe
            simp [List.filter_cons, hbe, hbe2]
        · intro k hk
          rcases List.mem_cons.mp hk with h2 | h2
          · subst h2
            rw [ih3 k hkey, d2]
          · exact ih2 k h2
        · intro k hk
          have hk1 : k ≠ key := fun e => hk (e ▸ List.mem_cons_self _ _)
          have hk2 : k ∉ ks := fun e => hk (List.mem_cons_of_mem _ e)
          rw [ih3 k hk2, d3 k hk1]
        · intro k hk
          rcases ih4 k hk with ⟨hk2, hne1⟩
          by_cases hk1 : k = key
          · subst hk1
            exact absurd d4 hne1
          · refine ⟨?_, ?_⟩
            · intro hmem
              rcases List.mem_cons.mp hmem with h2 | h2
              · exact hk1 h2
              · exact hk2 h2
            · rw [← d5 k hk1]
              exact hne1

theorem eq_nil_of_assocFind_none {α β : Type} [DecidableEq α]
    (l : List (α × β)) (h : ∀ k, assocFind l k = none) : l = [] := by
  cases l with
  | nil => rfl
  | cons p rest =>
    have := h p.1
    rw [assocFind, if_pos rfl] at this
    cases this

theorem filter_keys_isEmpty (bufs : List (Value × List Record))
    (hnd : (bufs.map (fun p => p.1)).Nodup) :
    (bufs.map (fun p => p.1)).filter (fun k => ¬ (getBuf bufs k).isEmpty) =
      (bufs.filter (fun p => ¬ p.2.isEmpty)).map (fun p => p.1) := by
  induction bufs with
  | nil => rfl
  | cons p rest ih =>
    simp only [List.map_cons, List.nodup_cons] at hnd
    have hhead : getBuf (p :: rest) p.1 = p.2 := by
      unfold getBuf
      rw [assocFind, if_pos rfl]
      rfl
    have htail : ∀ k ∈ rest.map (fun q => q.1),
        getBuf (p :: rest) k = getBuf rest k := by
      intro k hk
      have : p.1 ≠ k := fun e => hnd.1 (e ▸ hk)
      unfold getBuf
      rw [assocFind, if_neg this]
    have hcongr : (rest.map (fun q => q.1)).filter
          (fun k => ¬ (getBuf (p :: rest) k).isEmpty) =
        (rest.map (fun q => q.1)).filter (fun k => ¬ (getBuf rest k).isEmpty) := by
      refine List.filter_congr ?_
      intro k hk
      rw [htail k hk]
    have ih2 := ih hnd.2
    have hcongr2 := hcongr
    simp only [List.isEmpty_iff, decide_not] at ih2 hcongr2
    rcases hbe : p.2.isEmpty with _ | _
    · have hne : ¬ p.2 = [] := by simpa using hbe
      simp [List.filter_cons, hhead, hne, hcongr2, ih2]
    · have he : p.2 = [] := by simpa using hbe
      simp [List.filter_cons, hhead, he, hcongr2, ih2]

/-- C4: when the input ends, the summarizer flushes every group with a
non-empty buffer — emitting exactly one record per such group, in buffer
insertion order, and nothing for empty buffers — and afterwards every
buffer is empty and every start-time entry is gone, so a later record under
any key records a fresh start time and begins a fresh one-element buffer. -/
theorem c4_end_of_stream (cfg : InsightConfig) (rf : Option (String → String))
    (resps : Nat → String) (events : List Ev)
    (o1 o2 : List InsightResult) (st st' : SState)
    (hloop : loopPhase cfg rf resps events initState = .ok (o1, st))
    (hfin : finalPhase cfg rf resps st = .ok (o2, st')) :
    o2.map (fun o => o.group) =
      (st.buffers.filter (fun p => ¬ p.2.isEmpty)).map (fun p => p.1) ∧
    (∀ p ∈ st'.buffers, p.2 = []) ∧
    st'.firstTs = [] ∧
    (∀ ev : Ev, assocFind (streamStepTs cfg ev st') (keyOf cfg ev.rcd) =
      some ev.t1) ∧
    (∀ ev : Ev, getBuf (bufAppend st'.buffers (keyOf cfg ev.rcd) ev.rcd)
      (keyOf cfg ev.rcd) = [ev.rcd]) := by
  rcases loopPhase_wf cfg rf resps events initState o1 st
      (by simp [NodupKeys, initState]) (by intro k hk; simp [initState, assocFind] at hk)
      hloop with ⟨hnd, hts⟩
  have hnd2 : (st.buffers.map (fun p => p.1)).Nodup := hnd
  have hfin2 : finalLoop cfg rf resps (st.buffers.map (fun p => p.1)) st =
      .ok (o2, st') := hfin
  rcases finalLoop_spec cfg rf resps (st.buffers.map (fun p => p.1)) st o2 st'
      hnd2 hts hfin2 with ⟨f1, f2, f3, f4, f5⟩
  have hallbuf : ∀ k, getBuf st'.buffers k = [] := by
    intro k
    by_cases hk : k ∈ st.buffers.map (fun p => p.1)
    · exact f2 k hk
    · rw [f3 k hk]
      unfold getBuf
      rw [(assocFind_eq_none_iff _ _).mpr hk]
      rfl
  have hts' : st'.firstTs = [] := by
    apply eq_nil_of_assocFind_none
    intro k
    by_contra hne
    rcases f4 k hne with ⟨hk2, hne1⟩
    have hsomev : (assocFind st.firstTs k).isSome := by
      rwa [Option.isSome_iff_ne_none]
    have hbne := hts k hsomev
    have : assocFind st.buffers k ≠ none := by
      intro he
      apply hbne
      unfold getBuf
      rw [he]
      rfl
    exact hk2 ((List.mem_map).mpr (by
      rcases ho : assocFind st.buffers k with _ | v
      · exact absurd ho this
      · exact ⟨(k, v), assocFind_mem _ _ _ ho, rfl⟩))
  refine ⟨?_, ?_, hts', ?_, ?_⟩
  · rw [f1]
    exact filter_keys_isEmpty st.buffers hnd
  · intro p hp
    have hnd' : NodupKeys st' := by
      unfold NodupKeys
      rw [f5]
      exact hnd
    have := assocFind_nodup_mem st'.buffers p hnd' hp
    have h2 := hallbuf p.1
    unfold getBuf at h2
    rw [this] at h2
    simpa using h2
  · intro ev
    unfold streamStepTs
    rw [hts']
    simp [assocFind]
  · intro ev
    rw [getBuf_bufAppend_self, hallbuf]
    rfl

theorem c4_end_of_stream_witness :
    loopPhase ⟨"m", "summarize", some "h", 50, none⟩ none (fun _ => "\x7b\x7d")
        [⟨[("h", Value.vStr "g1"), ("m", Value.vStr "a")], 0, 0⟩,
         ⟨[("m", Value.vStr "b")], 1, 1⟩] initState =
      .ok ([], ⟨[(Value.vStr "g1", [[("h", Value.vStr "g1"), ("m", Value.vStr "a")]]),
                 (Value.vStr "__all__", [[("m", Value.vStr "b")]])],
                [(Value.vStr "g1", 0), (Value.vStr "__all__", 1)], 0⟩) ∧
    finalPhase ⟨"m", "summarize", some "h", 50, none⟩ none (fun _ => "\x7b\x7d")
        ⟨[(Value.vStr "g1", [[("h", Value.vStr "g1"), ("m", Value.vStr "a")]]),
          (Value.vStr "__all__", [[("m", Value.vStr "b")]])],
         [(Value.vStr "g1", 0), (Value.vStr "__all__", 1)], 0⟩ =
      .ok ([⟨Value.vStr "g1", 1, "[]", "[]", "[]"⟩,
            ⟨Value.vStr "__all__", 1, "[]", "[]", "[]"⟩],
           ⟨[(Value.vStr "g1", []), (Value.vStr "__all__", [])], [], 2⟩) ∧
    ([⟨Value.vStr "g1", 1, "[]", "[]", "[]"⟩,
      (⟨Value.vStr "__all__", 1, "[]", "[]", "[]"⟩ : InsightResult)].map
        (fun o => o.group)) = [Value.vStr "g1", Value.vStr "__all__"] ∧
    (∀ p ∈ ([(Value.vStr "g1", []), (Value.vStr "__all__", [])] :
        List (Value × List Record)), p.2 = []) ∧
    (([] : List (Value × Int)) = []) := by
  have h := c4_end_of_stream ⟨"m", "summarize", some "h", 50, none⟩ none
    (fun _ => "\x7b\x7d")
    [⟨[("h", Value.vStr "g1"), ("m", Value.vStr "a")], 0, 0⟩,
     ⟨[("m", Value.vStr "b")], 1, 1⟩]
    [] [⟨Value.vStr "g1", 1, "[]", "[]", "[]"⟩,
        ⟨Value.vStr "__all__", 1, "[]", "[]", "[]"⟩]
    ⟨[(Value.vStr "g1", [[("h", Value.vStr "g1"), ("m", Value.vStr "a")]]),
      (Value.vStr "__all__", [[("m", Value.vStr "b")]])],
     [(Value.vStr "g1", 0), (Value.vStr "__all__", 1)], 0⟩
    ⟨[(Value.vStr "g1", []), (Value.vStr "__all__", [])], [], 2⟩ rfl rfl
  exact ⟨rfl, rfl, h.1.trans (by decide), h.2.1, h.2.2.1⟩

/-! ## Streamer lemmas -/

theorem processBatch_cons (prompt model : String) (env : Nat → HttpOutcome)
    (times : Nat → Int) (idx : Nat) (r : Record) (rs : List Record) :
    processBatch prompt model env times idx (r :: rs) =
      processOne prompt model (times idx) (env idx) r ::
        processBatch prompt model env times (idx + 1) rs := rfl

theorem processBatch_append (prompt model : String) (env : Nat → HttpOutcome)
    (times : Nat → Int) :
    ∀ (xs ys : List Record) (idx : Nat),
    processBatch prompt model env times idx (xs ++ ys) =
      processBatch prompt model env times idx xs ++
        processBatch prompt model env times (idx + xs.length) ys := by
  intro xs
  induction xs with
  | nil => intro ys idx; simp [processBatch]
  | cons r rs ih =>
    intro ys idx
    simp only [List.cons_append, processBatch_cons, List.length_cons]
    rw [ih ys (idx + 1)]
    have h2 : idx + 1 + rs.length = idx + (rs.length + 1) := by omega
    rw [h2]

theorem streamLoop_processBatch (prompt model : String)
    (env : Nat → HttpOutcome) (times : Nat → Int) :
    ∀ (rs : List Record) (idx : Nat) (acc : List Record),
    streamLoop prompt model env times rs idx acc =
      processBatch prompt model env times idx (acc ++ rs) := by
  intro rs
  induction rs with
  | nil => intro idx acc; simp [streamLoop]
  | cons r rs ih =>
    intro idx acc
    unfold streamLoop
    by_cases h : 10 ≤ (acc ++ [r]).length
    · rw [if_pos h, ih]
      have he : acc ++ r :: rs = (acc ++ [r]) ++ rs := by simp
      rw [he, processBatch_append prompt model env times (acc ++ [r]) rs idx]
      simp
    · rw [if_neg h, ih]
      have he : acc ++ r :: rs = (acc ++ [r]) ++ rs := by simp
      rw [he]

theorem processBatch_length (prompt model : String) (env : Nat → HttpOutcome)
    (times : Nat → Int) :
    ∀ (rs : List Record) (idx : Nat),
    (processBatch prompt model env times idx rs).length = rs.length := by
  intro rs
  induction rs with
  | nil => intro idx; rfl
  | cons r rs ih => intro idx; simp [processBatch, ih]

theorem processBatch_getElem (prompt model : String) (env : Nat → HttpOutcome)
    (times : Nat → Int) :
    ∀ (rs : List Record) (idx i : Nat), i < rs.length →
    (processBatch prompt model env times idx rs)[i]? =
      (rs[i]?).map (fun r => processOne prompt model (times (idx + i))
        (env (idx + i)) r) := by
  intro rs
  induction rs with
  | nil => intro idx i h; simp at h
  | cons r rs ih =>
    intro idx i h
    cases i with
    | zero => simp [processBatch]
    | succ i =>
      simp only [processBatch_cons, List.getElem?_cons_succ]
      rw [ih (idx + 1) i (by simpa using h)]
      have : idx + 1 + i = idx + (i + 1) := by omega
      simp [this]

theorem recGet_dictSet_self (r : Record) (k : String) (v : Value) :
    recGet (dictSet r k v) k = some v := by
  unfold dictSet recGet
  by_cases h : (assocFind r k).isSome
  · rw [if_pos h, assocFind_mapVal_self r k (fun _ => v)]
    rcases Option.isSome_iff_exists.mp h with ⟨w, hw⟩
    rw [hw]
    rfl
  · rw [if_neg h, assocFind_append,
      Option.not_isSome_iff_eq_none.mp h]
    simp [assocFind]

theorem recGet_dictSet_ne (r : Record) (k k' : String) (v : Value)
    (hne : k' ≠ k) :
    recGet (dictSet r k v) k' = recGet r k' := by
  unfold dictSet recGet
  by_cases h : (assocFind r k).isSome
  · rw [if_pos h, assocFind_mapVal_ne r k k' (fun _ => v) hne]
  · rw [if_neg h, assocFind_append]
    simp [assocFind, Ne.symm hne]

theorem processOne_raises (prompt model : String) (t : Int) (msg : String)
    (r : Record) :
    recGet (processOne prompt model t (.raises msg) r) "status" =
      some (.vStr "exception") ∧
    recGet (processOne prompt model t (.raises msg) r) "error_message" =
      some (.vStr msg) := by
  unfold processOne pyUpdate
  simp only [List.foldl]
  constructor
  · rw [recGet_dictSet_ne _ _ _ _ (by decide),
      recGet_dictSet_ne _ _ _ _ (by decide),
      recGet_dictSet_ne _ _ _ _ (by decide), recGet_dictSet_self]
  · rw [recGet_dictSet_ne _ _ _ _ (by decide),
      recGet_dictSet_ne _ _ _ _ (by decide), recGet_dictSet_self]

/-- C7: for every record processed by the streamer, batching is pure pacing
(the output is the per-record map over the input, each record consuming its
own oracle outcome), one output record is produced per input record, and when
the world raises while a record is processed the corresponding output is the
exception record: status `"exception"` with the error message in
`error_message` — later records are unaffected. -/
theorem c7_exception_isolation (prompt model : String)
    (env : Nat → HttpOutcome) (times : Nat → Int) (records : List Record) :
    streamerStream prompt model env times records =
      processBatch prompt model env times 0 records ∧
    (streamerStream prompt model env times records).length = records.length ∧
    (∀ i msg, env i = .raises msg → ∀ _hi : i < records.length,
      ∃ out, (streamerStream prompt model env times records)[i]? = some out ∧
        recGet out "status" = some (.vStr "exception") ∧
        recGet out "error_message" = some (.vStr msg)) := by
  have heq : streamerStream prompt model env times records =
      processBatch prompt model env times 0 records := by
    unfold streamerStream
    rw [streamLoop_processBatch]
    simp
  refine ⟨heq, ?_, ?_⟩
  · rw [heq, processBatch_length]
  · intro i msg hmsg hi
    rw [heq, processBatch_getElem prompt model env times records 0 i hi]
    rw [List.getElem?_eq_getElem hi]
    refine ⟨processOne prompt model (times (0 + i)) (env (0 + i))
      (records.get ⟨i, hi⟩), by simp, ?_, ?_⟩
    · rw [Nat.zero_add, hmsg]
      exact (processOne_raises prompt model (times i) msg _).1
    · rw [Nat.zero_add, hmsg]
      exact (processOne_raises prompt model (times i) msg _).2

theorem c7_exception_isolation_witness :
    (fun i => if i = 0 then HttpOutcome.raises "boom"
      else HttpOutcome.responds 200
        ["data: \x7b\"choices\":[\x7b\"delta\":\x7b\"content\":\"Hel\"\x7d\x7d]\x7d",
         "data: \x7b\"choices\":[\x7b\"delta\":\x7b\"content\":\"lo\"\x7d\x7d]\x7d",
         "data: [DONE]"]) 0 = HttpOutcome.raises "boom" ∧
    (∃ out, (streamerStream "p \x7bhost\x7d" "mdl"
        (fun i => if i = 0 then HttpOutcome.raises "boom"
          else HttpOutcome.responds 200
            ["data: \x7b\"choices\":[\x7b\"delta\":\x7b\"content\":\"Hel\"\x7d\x7d]\x7d",
             "data: \x7b\"choices\":[\x7b\"delta\":\x7b\"content\":\"lo\"\x7d\x7d]\x7d",
             "data: [DONE]"]) (fun _ => 0)
        [[("host", Value.vStr "w1")], [("host", Value.vStr "w2")]])[0]? =
        some out ∧
      recGet out "status" = some (.vStr "exception") ∧
      recGet out "error_message" = some (.vStr "boom")) ∧
    (streamerStream "p \x7bhost\x7d" "mdl"
        (fun i => if i = 0 then HttpOutcome.raises "boom"
          else HttpOutcome.responds 200
            ["data: \x7b\"choices\":[\x7b\"delta\":\x7b\"content\":\"Hel\"\x7d\x7d]\x7d",
             "data: \x7b\"choices\":[\x7b\"delta\":\x7b\"content\":\"lo\"\x7d\x7d]\x7d",
             "data: [DONE]"]) (fun _ => 0)
        [[("host", Value.vStr "w1")], [("host", Value.vStr "w2")]])[1]? =
      some [("host", Value.vStr "w2"), ("_time", Value.vFloat 0),
            ("original_prompt", Value.vStr "p \x7bhost\x7d"),
            ("processed_prompt", Value.vStr "p w2"),
            ("status", Value.vStr "success"),
            ("response_code", Value.vInt 200),
            ("openai_response", Value.vStr "Hello"),
            ("model", Value.vStr "mdl")] := by
  refine ⟨rfl, ?_, rfl⟩
  exact (c7_exception_isolation "p \x7bhost\x7d" "mdl"
    (fun i => if i = 0 then HttpOutcome.raises "boom"
      else HttpOutcome.responds 200
        ["data: \x7b\"choices\":[\x7b\"delta\":\x7b\"content\":\"Hel\"\x7d\x7d]\x7d",
         "data: \x7b\"choices\":[\x7b\"delta\":\x7b\"content\":\"lo\"\x7d\x7d]\x7d",
         "data: [DONE]"]) (fun _ => 0)
    [[("host", Value.vStr "w1")], [("host", Value.vStr "w2")]]).2.2 0 "boom"
    rfl (by decide)

/-! ## The streaming-reassembly claim (C8)

Spec-side definitions, written from the claim's words: a line contributes
the first choice's delta content exactly when it is non-blank, carries the
`data: ` prefix, its payload decodes as JSON, and the decoded chunk has the
`choices[0].delta.content` string.  The theorem relates the source's
accumulation loop to these. -/

/-- The `choices[0].delta.content` string of a well-shaped chunk, if any
(spec-side description of the extracted fragment). -/
def specContent (j : Json) : Option String :=
  match j with
  | .obj kvs =>
    match assocFind kvs "choices" with
    | some (.arr (c :: _)) =>
      match c with
      | .obj ckvs =>
        match assocFind ckvs "delta" with
        | some (.obj dkvs) =>
          match assocFind dkvs "content" with
          | some (.str s) => some s
          | _ => none
        | _ => none
      | _ => none
    | _ => none
  | _ => none

/-- The fragment a transport line contributes, per the claim: blank lines
and lines without the `data: ` prefix contribute nothing, undecodable
payloads are skipped, otherwise the chunk's content fragment (if present). -/
def specFrag (l : String) : Option String :=
  if l = "" then none
  else
    let t := pyStrip l
    if chPrefix "data: ".data t.data then
      match jsonParse (String.mk (t.data.drop 6)) with
      | none => none
      | some j => specContent j
    else none

/-- Whether a line is the `data: [DONE]` termination marker. -/
def isDoneLine (l : String) : Bool :=
  decide (l ≠ "") && chPrefix "data: ".data (pyStrip l).data &&
    decide (String.mk ((pyStrip l).data.drop 6) = "[DONE]")

/-- Whether the loop body would raise an uncaught exception on this line. -/
def lineRaises (l : String) : Bool :=
  match lineStep l with
  | .raise _ => true
  | _ => false

theorem chunkExtract_ok (j : Json) (s? : Option String)
    (hok : chunkExtract j = .ok s?) : s? = specContent j := by
  cases j with
  | obj kvs =>
    rcases hfind : assocFind kvs "choices" with _ | choices
    · simp [chunkExtract, Bind.bind, Except.bind, pyContains, hfind, pure, Except.pure] at hok
      simp [specContent, hfind, ← hok]
    · cases choices with
      | arr xs =>
        cases xs with
        | nil =>
          simp [chunkExtract, Bind.bind, Except.bind, pyContains, pyIndexStr, pyLen, hfind, pure,
            Except.pure] at hok
          simp [specContent, hfind, ← hok]
        | cons c rest =>
          cases c with
          | obj ckvs =>
            rcases hdelta : assocFind ckvs "delta" with _ | delta
            · simp [chunkExtract, Bind.bind, Except.bind, pyContains, pyIndexStr, pyLen, pyIndex0,
                hfind, hdelta, pure, Except.pure] at hok
              simp [specContent, hfind, hdelta, ← hok]
            · cases delta with
              | obj dkvs =>
                rcases hcont : assocFind dkvs "content" with _ | content
                · simp [chunkExtract, Bind.bind, Except.bind, pyContains, pyIndexStr, pyLen, pyIndex0,
                    hfind, hdelta, hcont, pure, Except.pure] at hok
                  simp [specContent, hfind, hdelta, hcont, ← hok]
                · cases content with
                  | str s =>
                    simp [chunkExtract, Bind.bind, Except.bind, pyContains, pyIndexStr, pyLen,
                      pyIndex0, hfind, hdelta, hcont, pure, Except.pure] at hok
                    simp [specContent, hfind, hdelta, hcont, ← hok]
                  | null =>
                    simp [chunkExtract, Bind.bind, Except.bind, pyContains, pyIndexStr, pyLen,
                      pyIndex0, hfind, hdelta, hcont] at hok
                  | bool b =>
                    simp [chunkExtract, Bind.bind, Except.bind, pyContains, pyIndexStr, pyLen,
                      pyIndex0, hfind, hdelta, hcont] at hok
                  | num s =>
                    simp [chunkExtract, Bind.bind, Except.bind, pyContains, pyIndexStr, pyLen,
                      pyIndex0, hfind, hdelta, hcont] at hok
                  | arr ys =>
                    simp [chunkExtract, Bind.bind, Except.bind, pyContains, pyIndexStr, pyLen,
                      pyIndex0, hfind, hdelta, hcont] at hok
                  | obj okvs =>
                    simp [chunkExtract, Bind.bind, Except.bind, pyContains, pyIndexStr, pyLen,
                      pyIndex0, hfind, hdelta, hcont] at hok
              | str s =>
                rcases hsub : listContainsSub "content".data s.data with _ | _
                · simp [chunkExtract, Bind.bind, Except.bind, pyContains, pyIndexStr, pyLen, pyIndex0,
                    hfind, hdelta, hsub, pure, Except.pure] at hok
                  simp [specContent, hfind, hdelta, ← hok]
                · simp [chunkExtract, Bind.bind, Except.bind, pyContains, pyIndexStr, pyLen, pyIndex0,
                    hfind, hdelta, hsub] at hok
              | arr ys =>
                rcases hmem : ys.any (fun x => match x with
                    | .str s => s = "content" | _ => false) with _ | _
                · simp [chunkExtract, Bind.bind, Except.bind, pyContains, pyIndexStr, pyLen, pyIndex0,
                    hfind, hdelta, hmem, pure, Except.pure] at hok
                  simp [specContent, hfind, hdelta, ← hok]
                · simp [chunkExtract, Bind.bind, Except.bind, pyContains, pyIndexStr, pyLen, pyIndex0,
                    hfind, hdelta, hmem] at hok
              | null =>
                simp [chunkExtract, Bind.bind, Except.bind, pyContains, pyIndexStr, pyLen, pyIndex0,
                  hfind, hdelta] at hok
              | bool b =>
                simp [chunkExtract, Bind.bind, Except.bind, pyContains, pyIndexStr, pyLen, pyIndex0,
                  hfind, hdelta] at hok
              | num s =>
                simp [chunkExtract, Bind.bind, Except.bind, pyContains, pyIndexStr, pyLen, pyIndex0,
                  hfind, hdelta] at hok
          | str s =>
            rcases hsub : listContainsSub "delta".data s.data with _ | _
            · simp [chunkExtract, Bind.bind, Except.bind, pyContains, pyIndexStr, pyLen, pyIndex0,
                hfind, hsub, pure, Except.pure] at hok
              simp [specContent, hfind, ← hok]
            · simp [chunkExtract, Bind.bind, Except.bind, pyContains, pyIndexStr, pyLen, pyIndex0,
                hfind, hsub] at hok
          | arr ys =>
            rcases hmem : ys.any (fun x => match x with
                | .str s => s = "delta" | _ => false) with _ | _
            · simp [chunkExtract, Bind.bind, Except.bind, pyContains, pyIndexStr, pyLen, pyIndex0,
                hfind, hmem, pure, Except.pure] at hok
              simp [specContent, hfind, ← hok]
            · simp [chunkExtract, Bind.bind, Except.bind, pyContains, pyIndexStr, pyLen, pyIndex0,
                hfind, hmem] at hok
          | null =>
            simp [chunkExtract, Bind.bind, Except.bind, pyContains, pyIndexStr, pyLen, pyIndex0,
              hfind] at hok
          | bool b =>
            simp [chunkExtract, Bind.bind, Except.bind, pyContains, pyIndexStr, pyLen, pyIndex0,
              hfind] at hok
          | num s =>
            simp [chunkExtract, Bind.bind, Except.bind, pyContains, pyIndexStr, pyLen, pyIndex0,
              hfind] at hok
      | obj kvs2 =>
        cases kvs2 with
        | nil =>
          simp [chunkExtract, Bind.bind, Except.bind, pyContains, pyIndexStr, pyLen, hfind, pure,
            Except.pure] at hok
          simp [specContent, hfind, ← hok]
        | cons kv rest =>
          simp [chunkExtract, Bind.bind, Except.bind, pyContains, pyIndexStr, pyLen, pyIndex0,
            hfind] at hok
      | str s =>
        cases hs : s.data with
        | nil =>
          have hlen : s.length = 0 := by
            simp [String.length, hs]
          simp [chunkExtract, Bind.bind, Except.bind, pyContains, pyIndexStr, pyLen, hfind, hlen,
            pure, Except.pure] at hok
          simp [specContent, hfind, ← hok]
        | cons ch rest =>
          have hlen : 0 < s.length := by
            simp [String.length, hs]
          simp [chunkExtract, Bind.bind, Except.bind, pyContains, pyIndexStr, pyLen, pyIndex0, hfind,
            hlen, hs, listContainsSub, chPrefix, pure, Except.pure] at hok
          simp [specContent, hfind, ← hok]
      | null =>
        simp [chunkExtract, Bind.bind, Except.bind, pyContains, pyIndexStr, pyLen, hfind] at hok
      | bool b =>
        simp [chunkExtract, Bind.bind, Except.bind, pyContains, pyIndexStr, pyLen, hfind] at hok
      | num s =>
        simp [chunkExtract, Bind.bind, Except.bind, pyContains, pyIndexStr, pyLen, hfind] at hok
  | arr xs =>
    rcases hmem : xs.any (fun x => match x with
        | .str s => s = "choices" | _ => false) with _ | _
    · simp [chunkExtract, Bind.bind, Except.bind, pyContains, hmem, pure, Except.pure] at hok
      simp [specContent, ← hok]
    · simp [chunkExtract, Bind.bind, Except.bind, pyContains, pyIndexStr, hmem] at hok
  | str s =>
    rcases hsub : listContainsSub "choices".data s.data with _ | _
    · simp [chunkExtract, Bind.bind, Except.bind, pyContains, hsub, pure, Except.pure] at hok
      simp [specContent, ← hok]
    · simp [chunkExtract, Bind.bind, Except.bind, pyContains, pyIndexStr, hsub] at hok
  | null => simp [chunkExtract, Bind.bind, Except.bind, pyContains] at hok
  | bool b => simp [chunkExtract, Bind.bind, Except.bind, pyContains] at hok
  | num s => simp [chunkExtract, Bind.bind, Except.bind, pyContains] at hok

theorem lineStep_done_iff (l : String) :
    lineStep l = .done ↔ isDoneLine l = true := by
  unfold lineStep isDoneLine
  by_cases he : l = ""
  · simp [he]
  · simp only [he, if_false, decide_not]
    by_cases hp : chPrefix "data: ".data (pyStrip l).data = true
    · simp only [hp, if_true, Bool.and_true, Bool.true_and]
      by_cases hd : String.mk ((pyStrip l).data.drop 6) = "[DONE]"
      · simp [hd, he]
      · simp only [hd, if_false, decide_eq_true_eq]
        constructor
        · intro hcontra
          cases hj : jsonParse (String.mk ((pyStrip l).data.drop 6)) with
          | none =>
            rw [hj] at hcontra
            simp only [] at hcontra
            cases hcontra
          | some j =>
            rw [hj] at hcontra
            simp only [] at hcontra
            cases hce : chunkExtract j with
            | error e =>
              rw [hce] at hcontra
              simp only [] at hcontra
              cases hcontra
            | ok s? =>
              rw [hce] at hcontra
              cases s? with
              | none =>
                simp only [] at hcontra
                cases hcontra
              | some s =>
                simp only [] at hcontra
                cases hcontra
        · intro hcontra
          simp at hcontra
    · simp only [hp, if_false]
      constructor
      · intro hcontra; cases hcontra
      · intro hcontra
        simp only [Bool.and_eq_true, decide_eq_true_eq] at hcontra
        refine absurd hcontra.1.2 ?_
        simp

theorem lineStep_skip_frag (l : String) (hstep : lineStep l = .skip) :
    specFrag l = none := by
  unfold lineStep at hstep
  unfold specFrag
  by_cases he : l = ""
  · simp [he]
  · simp only [he, if_false] at hstep ⊢
    by_cases hp : chPrefix "data: ".data (pyStrip l).data = true
    · simp only [hp, if_true] at hstep ⊢
      by_cases hd : String.mk ((pyStrip l).data.drop 6) = "[DONE]"
      · rw [if_pos hd] at hstep
        cases hstep
      · rw [if_neg hd] at hstep
        cases hj : jsonParse (String.mk ((pyStrip l).data.drop 6)) with
        | none => rfl
        | some j =>
          rw [hj] at hstep
          simp only [] at hstep
          cases hce : chunkExtract j with
          | error e =>
            rw [hce] at hstep
            simp only [] at hstep
            cases hstep
          | ok s? =>
            rw [hce] at hstep
            cases s? with
            | none => exact (chunkExtract_ok j none hce).symm
            | some s =>
              simp only [] at hstep
              cases hstep
    · simp [hp] at hstep ⊢

theorem lineStep_append_frag (l s : String) (hstep : lineStep l = .append s) :
    specFrag l = some s := by
  unfold lineStep at hstep
  unfold specFrag
  by_cases he : l = ""
  · rw [if_pos he] at hstep
    cases hstep
  · simp only [he, if_false] at hstep ⊢
    by_cases hp : chPrefix "data: ".data (pyStrip l).data = true
    · simp only [hp, if_true] at hstep ⊢
      by_cases hd : String.mk ((pyStrip l).data.drop 6) = "[DONE]"
      · rw [if_pos hd] at hstep
        cases hstep
      · rw [if_neg hd] at hstep
        cases hj : jsonParse (String.mk ((pyStrip l).data.drop 6)) with
        | none =>
          rw [hj] at hstep
          simp only [] at hstep
          cases hstep
        | some j =>
          rw [hj] at hstep
          simp only [] at hstep
          cases hce : chunkExtract j with
          | error e =>
            rw [hce] at hstep
            simp only [] at hstep
            cases hstep
          | ok s? =>
            rw [hce] at hstep
            cases s? with
            | none =>
              simp only [] at hstep
              cases hstep
            | some s' =>
              simp only [] at hstep
              have hss : s' = s := LineStep.append.inj hstep
              subst hss
              exact (chunkExtract_ok j (some s') hce).symm
    · rw [if_neg (by simpa using hp)] at hstep
      cases hstep

/-- Concatenation of a list of strings in order (spec-side). -/
def strConcat : List String → String
  | [] => ""
  | s :: rest => s ++ strConcat rest

theorem consumeLinesAux_spec :
    ∀ (lines : List String) (acc : String),
    (∀ l ∈ lines, lineRaises l = false) →
    consumeLinesAux lines acc =
      .ok (acc ++ strConcat
        ((lines.takeWhile (fun l => !isDoneLine l)).filterMap specFrag)) := by
  intro lines
  induction lines with
  | nil => intro acc _; simp [consumeLinesAux, strConcat]
  | cons l ls ih =>
    intro acc h
    have hl : lineRaises l = false := h l (List.mem_cons_self _ _)
    have hls : ∀ x ∈ ls, lineRaises x = false :=
      fun x hx => h x (List.mem_cons_of_mem _ hx)
    cases hstep : lineStep l with
    | skip =>
      have hfrag := lineStep_skip_frag l hstep
      have hdone : isDoneLine l = false := by
        rcases hb : isDoneLine l with _ | _
        · rfl
        · rw [← lineStep_done_iff] at hb
          rw [hstep] at hb
          cases hb
      have he : consumeLinesAux (l :: ls) acc = consumeLinesAux ls acc := by
        conv_lhs => rw [consumeLinesAux]
        rw [hstep]
      rw [he, ih acc hls]
      simp [List.takeWhile_cons, hdone, hfrag]
    | append s =>
      have hfrag := lineStep_append_frag l s hstep
      have hdone : isDoneLine l = false := by
        rcases hb : isDoneLine l with _ | _
        · rfl
        · rw [← lineStep_done_iff] at hb
          rw [hstep] at hb
          cases hb
      have he : consumeLinesAux (l :: ls) acc = consumeLinesAux ls (acc ++ s) := by
        conv_lhs => rw [consumeLinesAux]
        rw [hstep]
      rw [he, ih (acc ++ s) hls]
      simp [List.takeWhile_cons, hdone, hfrag, strConcat, String.append_assoc]
    | done =>
      have hdone : isDoneLine l = true := (lineStep_done_iff l).mp hstep
      have he : consumeLinesAux (l :: ls) acc = .ok acc := by
        conv_lhs => rw [consumeLinesAux]
        rw [hstep]
      rw [he]
      simp [List.takeWhile_cons, hdone, strConcat]
    | raise e =>
      exfalso
      unfold lineRaises at hl
      rw [hstep] at hl
      cases hl

/-- C8: for every sequence of transport lines on which the loop raises no
uncaught exception, the accumulated response text is the in-order
concatenation of the first choice's delta content fragments of the lines
preceding the `data: [DONE]` marker — blank lines, lines without the
`data: ` prefix, undecodable payloads and chunks without a content string
contribute nothing, and `data: [DONE]` ends consumption. -/
theorem c8_streaming_reassembly (lines : List String)
    (h : ∀ l ∈ lines, lineRaises l = false) :
    consumeLines lines =
      .ok (strConcat
        ((lines.takeWhile (fun l => !isDoneLine l)).filterMap specFrag)) := by
  unfold consumeLines
  rw [consumeLinesAux_spec lines "" h]
  simp

theorem c8_streaming_reassembly_witness :
    (∀ l ∈ ["data: \x7b\"choices\":[\x7b\"delta\":\x7b\"content\":\"Hel\"\x7d\x7d]\x7d",
            "data: \x7b\"choices\":[\x7b\"delta\":\x7b\"content\":\"lo\"\x7d\x7d]\x7d",
            "data: [DONE]"], lineRaises l = false) ∧
    consumeLines
      ["data: \x7b\"choices\":[\x7b\"delta\":\x7b\"content\":\"Hel\"\x7d\x7d]\x7d",
       "data: \x7b\"choices\":[\x7b\"delta\":\x7b\"content\":\"lo\"\x7d\x7d]\x7d",
       "data: [DONE]"] = .ok "Hello" := by
  refine ⟨by decide, ?_⟩
  rw [c8_streaming_reassembly _ (by decide)]
  rfl

/-! ## The placeholder-substitution claim (C9)

`_substitute_placeholders` performs one **global sequential replace per
found placeholder**: the value substituted for an earlier placeholder is
itself subject to the later replacements.  The claim "replaces every
placeholder with the record's value" therefore fails when a substituted
value contains placeholder syntax (see the counterexample); it holds on
templates that alternate brace-free literal text with `\x7bname\x7d` groups
whose substituted values are brace-free, which the theorem below proves.
The development represents such templates as segment lists. -/

/-- C9 counterexample input: on the template `\x7ba\x7d \x7bb\x7d` with
`a = "\x7bb\x7d"` and `b = "X"`, the sequential replacement re-substitutes
the value of `a`, yielding `"X X"` instead of the per-claim `"\x7bb\x7d X"`. -/
theorem c9_placeholder_substitution_counterexample :
    substitutePlaceholders "\x7ba\x7d \x7bb\x7d"
        [("a", Value.vStr "\x7bb\x7d"), ("b", Value.vStr "X")] = "X X" ∧
    "X X" ≠ "\x7bb\x7d X" := by
  exact ⟨rfl, by decide⟩

/-- A template segment: brace-free literal text or a `\x7bname\x7d`
placeholder group. -/
inductive Seg where
  | lit (s : String)
  | ph (n : String)
deriving DecidableEq

/-- The template text denoted by a segment list. -/
def flattenSegs : List Seg → List Char
  | [] => []
  | .lit s :: rest => s.data ++ flattenSegs rest
  | .ph n :: rest => lbrace :: (n.data ++ rbrace :: flattenSegs rest)

/-- The claim's reading of substitution: every placeholder replaced by the
record's value text (or the not-found marker), literals kept. -/
def renderSegs (r : Record) : List Seg → List Char
  | [] => []
  | .lit s :: rest => s.data ++ renderSegs r rest
  | .ph n :: rest => (fieldValueText r n).data ++ renderSegs r rest

/-- The placeholder names of a segment list, in order. -/
def phNames : List Seg → List String
  | [] => []
  | .lit _ :: rest => phNames rest
  | .ph n :: rest => n :: phNames rest

/-- Replace one placeholder (everywhere) by a literal. -/
def replaceSeg (n v : String) : Seg → Seg
  | .ph m => if m = n then .lit v else .ph m
  | sg => sg

/-- Replace every placeholder whose name is in `done` by its value text. -/
def substSeg (r : Record) (done : List String) : Seg → Seg
  | .ph m => if m ∈ done then .lit (fieldValueText r m) else .ph m
  | sg => sg

theorem chPrefix_append_self : ∀ (p t : List Char), chPrefix p (p ++ t) = true := by
  intro p
  induction p with
  | nil => intro t; rfl
  | cons c p' ih => intro t; simp [chPrefix, ih]

theorem chPrefix_ph_ne : ∀ (p q t : List Char), p ≠ q → rbrace ∉ p →
    rbrace ∉ q → chPrefix (p ++ [rbrace]) (q ++ rbrace :: t) = false := by
  intro p
  induction p with
  | nil =>
    intro q t hne hp hq
    cases q with
    | nil => exact absurd rfl hne
    | cons b q' =>
      have hb : ¬ (rbrace = b) :=
        fun e => hq (e ▸ List.mem_cons_self _ _)
      simp [chPrefix, hb]
  | cons a p' ih =>
    intro q t hne hp hq
    cases q with
    | nil =>
      have ha : ¬ (a = rbrace) := fun e => hp (e ▸ List.mem_cons_self _ _)
      simp [chPrefix, ha]
    | cons b q' =>
      by_cases hab : a = b
      · subst hab
        have hne' : p' ≠ q' := fun e => hne (by rw [e])
        simp [chPrefix,
          ih q' t hne' (fun hx => hp (List.mem_cons_of_mem _ hx))
            (fun hx => hq (List.mem_cons_of_mem _ hx))]
      · simp [chPrefix, hab]

theorem pyReplaceAux_congr (pat rep : List Char) (hpat : pat ≠ []) :
    ∀ (f : Nat) (cs : List Char) (g : Nat), cs.length < f → cs.length < g →
    pyReplaceAux pat rep f cs = pyReplaceAux pat rep g cs := by
  intro f
  induction f with
  | zero => intro cs g h _; exact absurd h (Nat.not_lt_zero _)
  | succ f ih =>
    intro cs g hf hg
    obtain ⟨g', rfl⟩ : ∃ g', g = g' + 1 := ⟨g - 1, by omega⟩
    cases cs with
    | nil => rfl
    | cons c cs' =>
      have hpl : 1 ≤ pat.length := by
        cases pat with
        | nil => exact absurd rfl hpat
        | cons p ps => simp
      by_cases hpre : chPrefix pat (c :: cs') = true
      · simp only [pyReplaceAux, hpre, if_true]
        rw [ih ((c :: cs').drop pat.length) g'
          (by simp only [List.length_drop, List.length_cons] at *; omega)
          (by simp only [List.length_drop, List.length_cons] at *; omega)]
      · have hpre2 : chPrefix pat (c :: cs') = false := by
          simpa using hpre
        simp only [pyReplaceAux, hpre2, Bool.false_eq_true, if_false]
        rw [ih cs' g' (by simp at hf ⊢; omega) (by simp at hg ⊢; omega)]

theorem pyReplaceAux_skip (ps rep : List Char) :
    ∀ (s t : List Char) (f : Nat), (∀ c ∈ s, c ≠ lbrace) →
    s.length + t.length < f →
    pyReplaceAux (lbrace :: ps) rep f (s ++ t) =
      s ++ pyReplaceAux (lbrace :: ps) rep (f - s.length) t := by
  intro s
  induction s with
  | nil => intro t f _ _; simp
  | cons c s' ih =>
    intro t f hnb h
    obtain ⟨f', rfl⟩ : ∃ f', f = f' + 1 := ⟨f - 1, by omega⟩
    have hc : ¬ (lbrace = c) :=
      fun e => (hnb c (List.mem_cons_self _ _)) e.symm
    have hpre : chPrefix (lbrace :: ps) (c :: (s' ++ t)) = false := by
      simp [chPrefix, hc]
    simp only [List.cons_append, pyReplaceAux, List.append_eq, hpre,
      Bool.false_eq_true, if_false]
    rw [ih t f' (fun x hx => hnb x (List.mem_cons_of_mem _ hx))
      (by simp at h ⊢; omega)]
    have harith : f' - s'.length = f' + 1 - (s'.length + 1) := by omega
    rw [harith]
    simp

theorem strDataInj (m n : String) (h : m.data = n.data) : m = n := by
  cases m
  cases n
  exact congrArg String.mk h

theorem pyReplaceAux_cons (pat rep : List Char) (f : Nat) (c : Char)
    (cs : List Char) :
    pyReplaceAux pat rep (f + 1) (c :: cs) =
      if chPrefix pat (c :: cs) = true then
        rep ++ pyReplaceAux pat rep f ((c :: cs).drop pat.length)
      else c :: pyReplaceAux pat rep f cs := rfl

theorem pyReplaceAux_flatten (n v : String) (hn : n.data ≠ [])
    (hnr : rbrace ∉ n.data) :
    ∀ (segs : List Seg) (f : Nat),
    (∀ s, Seg.lit s ∈ segs → lbrace ∉ s.data) →
    (∀ m, Seg.ph m ∈ segs → m.data ≠ [] ∧ lbrace ∉ m.data ∧ rbrace ∉ m.data) →
    (flattenSegs segs).length < f →
    pyReplaceAux (lbrace :: (n.data ++ [rbrace])) v.data f (flattenSegs segs) =
      flattenSegs (segs.map (replaceSeg n v)) := by
  intro segs
  induction segs with
  | nil =>
    intro f _ _ hf
    obtain ⟨f', rfl⟩ : ∃ f', f = f' + 1 := ⟨f - 1, by omega⟩
    rfl
  | cons sg rest ih =>
    intro f hlits hphs hf
    have hlits' : ∀ s, Seg.lit s ∈ rest → lbrace ∉ s.data :=
      fun s hs => hlits s (List.mem_cons_of_mem _ hs)
    have hphs' : ∀ m, Seg.ph m ∈ rest →
        m.data ≠ [] ∧ lbrace ∉ m.data ∧ rbrace ∉ m.data :=
      fun m hm => hphs m (List.mem_cons_of_mem _ hm)
    cases sg with
    | lit s =>
      have hsl : lbrace ∉ s.data := hlits s (List.mem_cons_self _ _)
      have hflen : s.data.length + (flattenSegs rest).length < f := by
        have hsh : flattenSegs (.lit s :: rest) = s.data ++ flattenSegs rest := rfl
        rw [hsh, List.length_append] at hf
        omega
      have hstep := pyReplaceAux_skip (n.data ++ [rbrace]) v.data s.data
        (flattenSegs rest) f (fun c hc => fun e => hsl (e ▸ hc)) hflen
      have hsh : flattenSegs (.lit s :: rest) = s.data ++ flattenSegs rest := rfl
      rw [hsh, hstep,
        pyReplaceAux_congr (lbrace :: (n.data ++ [rbrace])) v.data
          (by simp) (f - s.data.length) (flattenSegs rest)
          ((flattenSegs rest).length + 1) (by omega) (by omega),
        ih ((flattenSegs rest).length + 1) hlits' hphs' (by omega)]
      rfl
    | ph m =>
      have hmf := hphs m (List.mem_cons_self _ _)
      obtain ⟨f', rfl⟩ : ∃ f', f = f' + 1 := ⟨f - 1, by omega⟩
      have hsh : flattenSegs (.ph m :: rest) =
          lbrace :: (m.data ++ rbrace :: flattenSegs rest) := rfl
      rw [hsh] at hf
      simp only [List.length_cons, List.length_append] at hf
      by_cases hm : m = n
      · subst hm
        have hpre : chPrefix (lbrace :: (m.data ++ [rbrace]))
            (lbrace :: (m.data ++ rbrace :: flattenSegs rest)) = true := by
          have h2 := chPrefix_append_self (lbrace :: (m.data ++ [rbrace]))
            (flattenSegs rest)
          have hsh2 : (lbrace :: (m.data ++ [rbrace])) ++ flattenSegs rest =
              lbrace :: (m.data ++ rbrace :: flattenSegs rest) := by simp
          rwa [hsh2] at h2
        rw [hsh, pyReplaceAux_cons, if_pos hpre]
        have hdrop : (lbrace :: (m.data ++ rbrace :: flattenSegs rest)).drop
            (lbrace :: (m.data ++ [rbrace])).length = flattenSegs rest := by
          have hsh2 : lbrace :: (m.data ++ rbrace :: flattenSegs rest) =
              (lbrace :: (m.data ++ [rbrace])) ++ flattenSegs rest := by simp
          rw [hsh2, List.drop_left]
        rw [hdrop,
          pyReplaceAux_congr (lbrace :: (m.data ++ [rbrace])) v.data
            (by simp) f' (flattenSegs rest) ((flattenSegs rest).length + 1)
            (by omega) (by omega),
          ih ((flattenSegs rest).length + 1) hlits' hphs' (by omega)]
        simp [replaceSeg, flattenSegs]
      · have hnem : n.data ≠ m.data :=
          fun e => hm (strDataInj m n e.symm)
        have hpre : chPrefix (lbrace :: (n.data ++ [rbrace]))
            (lbrace :: (m.data ++ rbrace :: flattenSegs rest)) = false := by
          have h2 := chPrefix_ph_ne n.data m.data (flattenSegs rest) hnem hnr
            hmf.2.2
          simp [chPrefix, h2]
        rw [hsh, pyReplaceAux_cons, if_neg (by simp [hpre])]
        rw [pyReplaceAux_skip (n.data ++ [rbrace]) v.data m.data
          (rbrace :: flattenSegs rest) f'
          (fun c hc => fun e => hmf.2.1 (e ▸ hc))
          (by simp only [List.length_cons]; omega)]
        obtain ⟨g, hg⟩ : ∃ g, f' - m.data.length = g + 1 :=
          ⟨f' - m.data.length - 1, by omega⟩
        rw [hg]
        have hpre2 : chPrefix (lbrace :: (n.data ++ [rbrace]))
            (rbrace :: flattenSegs rest) = false := by
          have hlr : ¬ (lbrace = rbrace) := by decide
          simp [chPrefix, hlr]
        rw [pyReplaceAux_cons, if_neg (by simp [hpre2])]
        rw [pyReplaceAux_congr (lbrace :: (n.data ++ [rbrace])) v.data
            (by simp) g (flattenSegs rest) ((flattenSegs rest).length + 1)
            (by omega) (by omega),
          ih ((flattenSegs rest).length + 1) hlits' hphs' (by omega)]
        simp [replaceSeg, hm, flattenSegs]

theorem strMkData (s : String) : String.mk s.data = s := by
  cases s
  rfl

theorem findPhAux_lit (s t : List Char) (h : lbrace ∉ s) :
    findPhAux (s ++ t) none = findPhAux t none := by
  induction s with
  | nil => rfl
  | cons c s' ih =>
    have hc : ¬ (c = lbrace) := fun e => h (e ▸ List.mem_cons_self _ _)
    simp only [List.cons_append, findPhAux, hc, if_false]
    exact ih (fun hx => h (List.mem_cons_of_mem _ hx))

theorem findPhAux_ph (m : List Char) (hm : rbrace ∉ m) :
    ∀ (acc t : List Char), findPhAux (m ++ rbrace :: t) (some acc) =
      if (acc ++ m).isEmpty then findPhAux t none
      else String.mk (acc ++ m) :: findPhAux t none := by
  induction m with
  | nil =>
    intro acc t
    simp [findPhAux, List.isEmpty_iff]
  | cons c m' ih =>
    intro acc t
    have hc : ¬ (c = rbrace) := fun e => hm (e ▸ List.mem_cons_self _ _)
    simp only [List.cons_append, findPhAux, hc, if_false, List.append_eq]
    rw [ih (fun hx => hm (List.mem_cons_of_mem _ hx)) (acc ++ [c]) t]
    have hsh : acc ++ [c] ++ m' = acc ++ c :: m' := by simp
    rw [hsh]

theorem findPh_flatten (segs : List Seg)
    (hlits : ∀ s, Seg.lit s ∈ segs → lbrace ∉ s.data)
    (hphs : ∀ m, Seg.ph m ∈ segs →
      m.data ≠ [] ∧ lbrace ∉ m.data ∧ rbrace ∉ m.data) :
    findPhAux (flattenSegs segs) none = phNames segs := by
  induction segs with
  | nil => rfl
  | cons sg rest ih =>
    have hlits' : ∀ s, Seg.lit s ∈ rest → lbrace ∉ s.data :=
      fun s hs => hlits s (List.mem_cons_of_mem _ hs)
    have hphs' : ∀ m, Seg.ph m ∈ rest →
        m.data ≠ [] ∧ lbrace ∉ m.data ∧ rbrace ∉ m.data :=
      fun m hm => hphs m (List.mem_cons_of_mem _ hm)
    cases sg with
    | lit s =>
      have hsh : flattenSegs (.lit s :: rest) = s.data ++ flattenSegs rest := rfl
      rw [hsh, findPhAux_lit s.data (flattenSegs rest)
        (hlits s (List.mem_cons_self _ _)), ih hlits' hphs']
      rfl
    | ph m =>
      have hmf := hphs m (List.mem_cons_self _ _)
      have hsh : flattenSegs (.ph m :: rest) =
          lbrace :: (m.data ++ rbrace :: flattenSegs rest) := rfl
      rw [hsh]
      have hstep : findPhAux (lbrace :: (m.data ++ rbrace :: flattenSegs rest))
          none = findPhAux (m.data ++ rbrace :: flattenSegs rest) (some []) := by
        simp [findPhAux]
      rw [hstep, findPhAux_ph m.data hmf.2.2 [] (flattenSegs rest)]
      have hne : (m.data.isEmpty) = false := by
        simp [List.isEmpty_iff, hmf.1]
      simp only [List.nil_append, hne, Bool.false_eq_true, if_false, strMkData]
      rw [ih hlits' hphs']
      rfl

theorem substSeg_replace (r : Record) (done : List String) (n : String)
    (segs : List Seg) :
    (segs.map (substSeg r done)).map (replaceSeg n (fieldValueText r n)) =
      segs.map (substSeg r (n :: done)) := by
  rw [List.map_map]
  refine List.map_congr_left ?_
  intro sg _
  cases sg with
  | lit s => rfl
  | ph m =>
    simp only [Function.comp_apply, substSeg]
    by_cases hd : m ∈ done
    · have : m ∈ n :: done := List.mem_cons_of_mem _ hd
      simp [hd, this, replaceSeg]
    · by_cases hmn : m = n
      · subst hmn
        simp [hd, replaceSeg, List.mem_cons]
      · have : m ∉ n :: done := by
          intro hmem
          rcases List.mem_cons.mp hmem with h2 | h2
          · exact hmn h2
          · exact hd h2
        simp [hd, this, replaceSeg, hmn]

theorem substSeg_nil (r : Record) (segs : List Seg) :
    segs.map (substSeg r []) = segs := by
  have : ∀ sg, substSeg r [] sg = sg := by
    intro sg
    cases sg with
    | lit s => rfl
    | ph m =>
      show (if m ∈ ([] : List String) then Seg.lit (fieldValueText r m)
        else Seg.ph m) = Seg.ph m
      simp
  exact (List.map_congr_left fun sg _ => this sg).trans (List.map_id segs)

theorem substSeg_full (r : Record) (done : List String) :
    ∀ (segs : List Seg), (∀ m, Seg.ph m ∈ segs → m ∈ done) →
    flattenSegs (segs.map (substSeg r done)) = renderSegs r segs := by
  intro segs
  induction segs with
  | nil => intro _; rfl
  | cons sg rest ih =>
    intro h
    cases sg with
    | lit s =>
      have := ih (fun m hm => h m (List.mem_cons_of_mem _ hm))
      simp only [List.map_cons, substSeg, flattenSegs, renderSegs, this]
    | ph m =>
      have hm : m ∈ done := h m (List.mem_cons_self _ _)
      have := ih (fun m' hm' => h m' (List.mem_cons_of_mem _ hm'))
      simp only [List.map_cons, substSeg, hm, if_true, flattenSegs,
        renderSegs, this]

theorem substSeg_mem_lit (r : Record) (done : List String) (segs : List Seg)
    (hlits : ∀ s, Seg.lit s ∈ segs → lbrace ∉ s.data)
    (hvals : ∀ m, Seg.ph m ∈ segs → lbrace ∉ (fieldValueText r m).data) :
    ∀ s, Seg.lit s ∈ segs.map (substSeg r done) → lbrace ∉ s.data := by
  intro s hs
  obtain ⟨sg, hsg, heq⟩ := List.mem_map.mp hs
  cases sg with
  | lit s' =>
    have h2 : Seg.lit s' = Seg.lit s := heq
    have h3 : s' = s := by injection h2
    exact h3 ▸ hlits s' hsg
  | ph m =>
    have heq2 : (if m ∈ done then Seg.lit (fieldValueText r m)
        else Seg.ph m) = Seg.lit s := heq
    by_cases hd : m ∈ done
    · rw [if_pos hd] at heq2
      have h3 : fieldValueText r m = s := by injection heq2
      exact h3 ▸ hvals m hsg
    · rw [if_neg hd] at heq2
      exact Seg.noConfusion heq2

theorem substSeg_mem_ph (r : Record) (done : List String) (segs : List Seg) :
    ∀ m, Seg.ph m ∈ segs.map (substSeg r done) → Seg.ph m ∈ segs := by
  intro m hm
  obtain ⟨sg, hsg, heq⟩ := List.mem_map.mp hm
  cases sg with
  | lit s => exact Seg.noConfusion (heq : Seg.lit s = Seg.ph m)
  | ph m' =>
    have heq2 : (if m' ∈ done then Seg.lit (fieldValueText r m')
        else Seg.ph m') = Seg.ph m := heq
    by_cases hd : m' ∈ done
    · rw [if_pos hd] at heq2
      exact Seg.noConfusion heq2
    · rw [if_neg hd] at heq2
      have h3 : m' = m := by injection heq2
      exact h3 ▸ hsg

theorem mem_phNames (segs : List Seg) (n : String) :
    n ∈ phNames segs ↔ Seg.ph n ∈ segs := by
  induction segs with
  | nil => simp [phNames]
  | cons sg rest ih =>
    cases sg with
    | lit s => simp [phNames, ih]
    | ph m => simp [phNames, List.mem_cons, ih]

theorem pyReplace_flatten (n v : String) (hn : n.data ≠ [])
    (hnr : rbrace ∉ n.data) (segs : List Seg)
    (hlits : ∀ s, Seg.lit s ∈ segs → lbrace ∉ s.data)
    (hphs : ∀ m, Seg.ph m ∈ segs →
      m.data ≠ [] ∧ lbrace ∉ m.data ∧ rbrace ∉ m.data) :
    pyReplace (String.mk (flattenSegs segs)) (phPattern n) v =
      String.mk (flattenSegs (segs.map (replaceSeg n v))) := by
  have hne : phPattern n ≠ "" := by
    intro h
    have h2 : (phPattern n).data = ("" : String).data := by rw [h]
    exact List.noConfusion h2
  unfold pyReplace
  rw [if_neg hne]
  have hdata : (phPattern n).data = lbrace :: (n.data ++ [rbrace]) := rfl
  rw [hdata]
  have hself : (String.mk (flattenSegs segs)).data = flattenSegs segs := rfl
  rw [hself]
  rw [pyReplaceAux_flatten n v hn hnr segs ((flattenSegs segs).length + 1)
    hlits hphs (by omega)]

theorem foldl_subst (r : Record) (segs : List Seg)
    (hlits : ∀ s, Seg.lit s ∈ segs → lbrace ∉ s.data)
    (hphs : ∀ m, Seg.ph m ∈ segs →
      m.data ≠ [] ∧ lbrace ∉ m.data ∧ rbrace ∉ m.data)
    (hvals : ∀ m, Seg.ph m ∈ segs → lbrace ∉ (fieldValueText r m).data) :
    ∀ (ns done : List String), (∀ n ∈ ns, Seg.ph n ∈ segs) →
    ns.foldl (fun acc nm => pyReplace acc (phPattern nm) (fieldValueText r nm))
        (String.mk (flattenSegs (segs.map (substSeg r done)))) =
      String.mk (flattenSegs (segs.map (substSeg r (ns.reverse ++ done)))) := by
  intro ns
  induction ns with
  | nil =>
    intro done _
    rfl
  | cons n ns' ih =>
    intro done hns
    have hn := hphs n (hns n (List.mem_cons_self _ _))
    simp only [List.foldl_cons]
    rw [pyReplace_flatten n (fieldValueText r n) hn.1 hn.2.2
      (segs.map (substSeg r done))
      (substSeg_mem_lit r done segs hlits hvals)
      (fun m hm => hphs m (substSeg_mem_ph r done segs m hm))]
    rw [substSeg_replace r done n segs]
    rw [ih (n :: done) (fun n' hn' => hns n' (List.mem_cons_of_mem _ hn'))]
    have hrev : ns'.reverse ++ (n :: done) = (n :: ns').reverse ++ done := by
      simp
    rw [hrev]

/-- C9: for a template made of brace-free literal segments and well-formed
placeholders (non-empty, brace-free names) over a record whose substituted
value texts are brace-free, `_substitute_placeholders` replaces every
`\x7bname\x7d` placeholder with the record's field value coerced to text
(`str(record.get(...))`), or with the `[FIELD_NOT_FOUND:name]` marker when
the field is absent — i.e. it agrees with the spec-side per-placeholder
rendering `renderSegs`. The brace-freeness side conditions are necessary:
`c9_placeholder_substitution_counterexample` shows that a field value whose
text contains a later placeholder's syntax is re-substituted by the
sequential global `str.replace` calls, violating the claim as stated. -/
theorem c9_placeholder_substitution (segs : List Seg) (r : Record)
    (hlits : ∀ s, Seg.lit s ∈ segs → lbrace ∉ s.data)
    (hphs : ∀ m, Seg.ph m ∈ segs →
      m.data ≠ [] ∧ lbrace ∉ m.data ∧ rbrace ∉ m.data)
    (hvals : ∀ m, Seg.ph m ∈ segs → lbrace ∉ (fieldValueText r m).data) :
    substitutePlaceholders (String.mk (flattenSegs segs)) r =
      String.mk (renderSegs r segs) := by
  unfold substitutePlaceholders
  have hfind : findPlaceholders (String.mk (flattenSegs segs)) =
      phNames segs := by
    unfold findPlaceholders
    exact findPh_flatten segs hlits hphs
  rw [hfind]
  have hinit : String.mk (flattenSegs segs) =
      String.mk (flattenSegs (segs.map (substSeg r []))) := by
    rw [substSeg_nil]
  rw [hinit]
  rw [foldl_subst r segs hlits hphs hvals (phNames segs) []
    (fun n hn => (mem_phNames segs n).mp hn)]
  have hdone : ∀ m, Seg.ph m ∈ segs → m ∈ (phNames segs).reverse ++ [] := by
    intro m hm
    have h2 := (mem_phNames segs m).mpr hm
    simpa [List.mem_reverse] using h2
  rw [substSeg_full r ((phNames segs).reverse ++ []) segs hdone]

theorem c9_placeholder_substitution_witness :
    substitutePlaceholders "Host \x7bhost\x7d had \x7bcount\x7d errors"
        [("host", Value.vStr "web1"), ("count", Value.vInt 3)]
      = "Host web1 had 3 errors" ∧
    substitutePlaceholders "Host \x7bhost\x7d had \x7bcount\x7d errors"
        [("host", Value.vStr "web1")]
      = "Host web1 had [FIELD_NOT_FOUND:count] errors" := by
  constructor
  · exact c9_placeholder_substitution
      [Seg.lit "Host ", Seg.ph "host", Seg.lit " had ", Seg.ph "count",
        Seg.lit " errors"]
      [("host", Value.vStr "web1"), ("count", Value.vInt 3)]
      (by intro s hs; simp at hs; rcases hs with rfl|rfl|rfl <;> decide)
      (by intro m hm; simp at hm; rcases hm with rfl|rfl <;>
        exact ⟨by decide, by decide, by decide⟩)
      (by intro m hm; simp at hm; rcases hm with rfl|rfl <;> decide)
  · exact c9_placeholder_substitution
      [Seg.lit "Host ", Seg.ph "host", Seg.lit " had ", Seg.ph "count",
        Seg.lit " errors"]
      [("host", Value.vStr "web1")]
      (by intro s hs; simp at hs; rcases hs with rfl|rfl|rfl <;> decide)
      (by intro m hm; simp at hm; rcases hm with rfl|rfl <;>
        exact ⟨by decide, by decide, by decide⟩)
      (by intro m hm; simp at hm; rcases hm with rfl|rfl <;> decide)
